import Mathlib

/-!
# Verification of the zerog agent orchestration core

Shallow embedding of the agentic tool-call orchestration engine of the
zerog editor extension:

* the stream segment parser of `media/chat.js`
  (`processAgentBuffer`, `appendAgentChunk`, `finalizeStream`),
* the action extractors of `PromptFactory`
  (`parseToolCall`, `parsePlan`, `parseFileOperations`, `stripFilePathComment`),
* the tool executor `ToolHandler.execute`,
* the orchestration state machine `AgentLoop` (`run`, `_executeTask`,
  `approveToolExecution`, `rejectToolExecution`, `stop`).

Strings are modelled as `List Char` (JS strings are sequences of UTF-16
units; the claims under study do not depend on surrogate-pair details).
External effects (the model transport, the file system, child processes,
the human approval channel) are modelled as explicit oracles, and the
cooperative suspension points of the loop consume the oracle in program
order, matching the single-threaded event-driven execution of the source.
-/

namespace ZeroG

/-- The whitespace set used by the JS regex class `\s` and by
`String.prototype.trim` (the ASCII part; the claims do not exercise
Unicode spaces). -/
def wsChar (c : Char) : Bool :=
  (c == ' ') || (c == '\t') || (c == '\n') || (c == '\r') || (c == '\x0b') || (c == '\x0c')

/-- JS `String.prototype.trim`. -/
def trimChars (l : List Char) : List Char :=
  ((l.dropWhile wsChar).reverse.dropWhile wsChar).reverse

/-- JS `indexOf` for a single character: index of its first occurrence. -/
def firstIdx (c : Char) : List Char → Option Nat
  | [] => none
  | a :: l => if a = c then some 0 else (firstIdx c l).map (· + 1)

/-- JS `indexOf` for a pattern string: index of its first occurrence
(as a sublist starting at that index). -/
def firstOccur (pat : List Char) : List Char → Option Nat
  | [] => if pat = [] then some 0 else none
  | a :: l => if pat.isPrefixOf (a :: l) then some 0 else (firstOccur pat l).map (· + 1)

/-! ## Stream segment parser (`media/chat.js`)

State variables of the source: `agentParserState`, `agentRawBuffer`,
`agentContentBuffer`, plus the sequence of finalized segments delivered by
`finalizeAgentTag` (modelled as the `events` list; the incremental
`renderAgentContent` calls are pure UI display of the same accumulated
content and carry no extra information). -/

/-- The three recognized tag kinds of the agent-mode stream protocol. -/
inductive TagKind
  | thinking
  | tcall
  | message
deriving DecidableEq, Repr

/-- The tag name as it appears in the text protocol. -/
def tagName : TagKind → List Char
  | .thinking => "thinking".toList
  | .tcall => "tool_call".toList
  | .message => "message".toList

/-- `'</' + agentParserState + '>'` of `processAgentBuffer`. -/
def closingTag (k : TagKind) : List Char :=
  "</".toList ++ tagName k ++ ">".toList

/-- Dispatch of the trimmed tag text to a parser state
(the `if (tagContent === 'thinking') ...` chain). -/
def tagOfName (s : List Char) : Option TagKind :=
  if s = "thinking".toList then some .thinking
  else if s = "tool_call".toList then some .tcall
  else if s = "message".toList then some .message
  else none

/-- `agentParserState`: `'idle'` or one of the three content states. -/
inductive PState
  | idle
  | inTag (k : TagKind)
deriving DecidableEq, Repr

/-- The parser state owned by the stream segment parser, plus the list of
finalized `(type, content)` segments emitted so far. -/
structure AgentParser where
  state : PState
  raw : List Char
  content : List Char
  events : List (TagKind × List Char)
deriving DecidableEq, Repr

/-- Result of one iteration of the `while` loop of `processAgentBuffer`:
either the loop continues on a new state or it returns. -/
inductive StepRes
  | cont (p : AgentParser)
  | stuck (p : AgentParser)
deriving DecidableEq, Repr

/-- The `for (let pLen = closingTag.length - 1; pLen >= 1; pLen--)` search:
length of the longest suffix of `buf` (of length between 1 and `n`) that is
a prefix of `ct`; 0 when there is none. -/
def holdBackAux (ct buf : List Char) : Nat → Nat
  | 0 => 0
  | n + 1 =>
    if n + 1 ≤ buf.length ∧ (ct.take (n + 1)).isSuffixOf buf then n + 1
    else holdBackAux ct buf n

/-- Length of the held-back suffix computed by `processAgentBuffer` when the
closing tag is not found. -/
def holdBackLen (ct buf : List Char) : Nat :=
  holdBackAux ct buf (ct.length - 1)

/-- One iteration of the `while (agentRawBuffer.length > 0)` loop of
`processAgentBuffer`; a `return` of the source is `stuck`. -/
def pstep (p : AgentParser) : StepRes :=
  if p.raw = [] then .stuck p
  else
    match p.state with
    | .idle =>
      match firstIdx '<' p.raw with
      | none => .stuck { p with raw := [] }
      | some oi =>
        let r := p.raw.drop oi
        match firstIdx '>' r with
        | none => .stuck { p with raw := r }
        | some ci =>
          let tagContent := trimChars ((r.take ci).drop 1)
          let rest := r.drop (ci + 1)
          match tagOfName tagContent with
          | some k => .cont { state := .inTag k, raw := rest, content := [], events := p.events }
          | none => .cont { p with raw := rest }
    | .inTag k =>
      let ct := closingTag k
      match firstOccur ct p.raw with
      | none =>
        let keep := p.raw.length - holdBackLen ct p.raw
        .stuck { p with raw := p.raw.drop keep, content := p.content ++ p.raw.take keep }
      | some ci =>
        .cont { state := .idle, raw := p.raw.drop (ci + ct.length), content := [],
                events := p.events ++ [(k, p.content ++ p.raw.take ci)] }

theorem closingTag_length_pos (k : TagKind) : 1 ≤ (closingTag k).length := by
  cases k <;> decide

theorem pstep_cont_lt {p q : AgentParser} (h : pstep p = .cont q) :
    q.raw.length < p.raw.length := by
  obtain ⟨st, raw, content, events⟩ := p
  unfold pstep at h
  by_cases hr : raw = []
  · simp [hr] at h
  · simp only [hr, if_false] at h
    have hlen : 1 ≤ raw.length := List.length_pos.mpr hr
    cases st with
    | idle =>
      simp only at h
      rcases ho : firstIdx '<' raw with _ | oi
      · simp only [ho] at h
        exact StepRes.noConfusion h
      · simp only [ho] at h
        rcases hc : firstIdx '>' (raw.drop oi) with _ | ci
        · simp only [hc] at h
          exact StepRes.noConfusion h
        · simp only [hc] at h
          rcases ht : tagOfName (trimChars (((raw.drop oi).take ci).drop 1)) with _ | k
          · simp only [ht] at h
            cases h
            simp only [List.length_drop]
            omega
          · simp only [ht] at h
            cases h
            simp only [List.length_drop]
            omega
    | inTag k =>
      simp only at h
      rcases hc : firstOccur (closingTag k) raw with _ | ci
      · simp only [hc] at h
        exact StepRes.noConfusion h
      · simp only [hc] at h
        cases h
        simp only [List.length_drop]
        have := closingTag_length_pos k
        omega

/-- `processAgentBuffer`: iterate the loop body until the source returns. -/
def processAgentBuffer (p : AgentParser) : AgentParser :=
  match h : pstep p with
  | .stuck q => q
  | .cont q => processAgentBuffer q
termination_by p.raw.length
decreasing_by exact pstep_cont_lt h

/-- Fuel-indexed twin of `processAgentBuffer` (same loop, explicit bound);
used to evaluate the parser on concrete inputs. -/
def processFueled : Nat → AgentParser → AgentParser
  | 0, p => p
  | n + 1, p =>
    match pstep p with
    | .stuck q => q
    | .cont q => processFueled n q

/-- `appendAgentChunk`: append the fragment to the raw buffer and process. -/
def appendAgentChunk (p : AgentParser) (chunk : List Char) : AgentParser :=
  processAgentBuffer { p with raw := p.raw ++ chunk }

/-- The parser state installed by `startStreamingMessage`. -/
def initParser : AgentParser :=
  { state := .idle, raw := [], content := [], events := [] }

/-- The agent-mode branch of `finalizeStream`: force-close the open segment
only when the raw buffer is nonempty, then reset the parser variables. -/
def finalizeStream (p : AgentParser) : AgentParser :=
  match p.state with
  | .idle => { state := .idle, raw := [], content := [], events := p.events }
  | .inTag k =>
    if p.raw = [] then { state := .idle, raw := [], content := [], events := p.events }
    else { state := .idle, raw := [], content := [],
           events := p.events ++ [(k, p.content ++ p.raw)] }

/-- Feeding a sequence of stream fragments in order. -/
def feedAll (p : AgentParser) : List (List Char) → AgentParser
  | [] => p
  | c :: cs => feedAll (appendAgentChunk p c) cs

/-! ## JSON values and `JSON.parse`

The extractors and the tool dispatch operate on the dynamic values produced
by the platform's `JSON.parse`. Modelled from the ECMA-404 grammar: numbers
are kept as their lexeme (no claim depends on numeric magnitude), objects
keep their fields in textual order (later duplicate keys win on lookup,
matching `JSON.parse`). -/

inductive Json
  | null
  | bool (b : Bool)
  | num (lexeme : List Char)
  | str (s : List Char)
  | arr (elems : List Json)
  | obj (fields : List (List Char × Json))
deriving Repr

/-- JSON insignificant whitespace. -/
def jsonWs (c : Char) : Bool :=
  (c == ' ') || (c == '\t') || (c == '\n') || (c == '\r')

def skipWs (l : List Char) : List Char := l.dropWhile jsonWs

def hexVal (c : Char) : Option Nat :=
  if '0' ≤ c ∧ c ≤ '9' then some (c.toNat - '0'.toNat)
  else if 'a' ≤ c ∧ c ≤ 'f' then some (c.toNat - 'a'.toNat + 10)
  else if 'A' ≤ c ∧ c ≤ 'F' then some (c.toNat - 'A'.toNat + 10)
  else none

/-- JSON string body after the opening quote: decoded characters and the rest
after the closing quote. -/
def parseJString : List Char → Option (List Char × List Char)
  | [] => none
  | '"' :: rest => some ([], rest)
  | '\\' :: e :: rest =>
    match e with
    | '"' => (parseJString rest).map (fun p => ('"' :: p.1, p.2))
    | '\\' => (parseJString rest).map (fun p => ('\\' :: p.1, p.2))
    | '/' => (parseJString rest).map (fun p => ('/' :: p.1, p.2))
    | 'b' => (parseJString rest).map (fun p => ('\x08' :: p.1, p.2))
    | 'f' => (parseJString rest).map (fun p => ('\x0c' :: p.1, p.2))
    | 'n' => (parseJString rest).map (fun p => ('\n' :: p.1, p.2))
    | 'r' => (parseJString rest).map (fun p => ('\r' :: p.1, p.2))
    | 't' => (parseJString rest).map (fun p => ('\t' :: p.1, p.2))
    | 'u' =>
      match rest with
      | h1 :: h2 :: h3 :: h4 :: r =>
        match hexVal h1, hexVal h2, hexVal h3, hexVal h4 with
        | some a, some b, some c, some d =>
          (parseJString r).map (fun p => (Char.ofNat (((a * 16 + b) * 16 + c) * 16 + d) :: p.1, p.2))
        | _, _, _, _ => none
      | _ => none
    | _ => none
  | c :: rest =>
    if c.toNat < 32 then none
    else (parseJString rest).map (fun p => (c :: p.1, p.2))

/-- JSON number lexeme: `-? (0 | [1-9][0-9]*) (. [0-9]+)? ([eE][+-]?[0-9]+)?`. -/
def lexNumber (l : List Char) : Option (List Char × List Char) :=
  let signAndRest : List Char × List Char :=
    match l with
    | '-' :: r => (['-'], r)
    | _ => ([], l)
  let sign := signAndRest.1
  let afterSign := signAndRest.2
  match afterSign with
  | [] => none
  | c :: r =>
    if c = '0' then some (sign ++ ['0'], r)
    else if c.isDigit then
      let ds := r.takeWhile Char.isDigit
      some (sign ++ c :: ds, r.drop ds.length)
    else none

/-- Exponent tail after `e`/`E`: optional sign, one or more digits. -/
def lexExpTail (l : List Char) : Option (List Char × List Char) :=
  let signAndRest : List Char × List Char :=
    match l with
    | '+' :: r => (['+'], r)
    | '-' :: r => (['-'], r)
    | _ => ([], l)
  let ds := signAndRest.2.takeWhile Char.isDigit
  if ds = [] then none
  else some (signAndRest.1 ++ ds, signAndRest.2.drop ds.length)

/-- Optional fraction and exponent suffixes of a JSON number. -/
def lexFracExp (l : List Char) : Option (List Char × List Char) :=
  let fracRes : Option (List Char × List Char) :=
    match l with
    | '.' :: r =>
      let ds := r.takeWhile Char.isDigit
      if ds = [] then none else some ('.' :: ds, r.drop ds.length)
    | _ => some ([], l)
  match fracRes with
  | none => none
  | some (frac, r1) =>
    match r1 with
    | 'e' :: r2 =>
      match lexExpTail r2 with
      | some (tl, r3) => some (frac ++ 'e' :: tl, r3)
      | none => none
    | 'E' :: r2 =>
      match lexExpTail r2 with
      | some (tl, r3) => some (frac ++ 'E' :: tl, r3)
      | none => none
    | _ => some (frac, r1)

/-- Full JSON number lexeme. -/
def lexJNumber (l : List Char) : Option (List Char × List Char) :=
  match lexNumber l with
  | none => none
  | some (intPart, r1) =>
    match lexFracExp r1 with
    | none => none
    | some (tailPart, r2) => some (intPart ++ tailPart, r2)

mutual

/-- A JSON value (after optional leading whitespace) and the rest. -/
def parseJValue : Nat → List Char → Option (Json × List Char)
  | 0, _ => none
  | f + 1, l =>
    match skipWs l with
    | [] => none
    | c :: rest =>
      if c = '"' then (parseJString rest).map (fun p => (Json.str p.1, p.2))
      else if c = '\x7b' then
        match skipWs rest with
        | '\x7d' :: r2 => some (Json.obj [], r2)
        | _ => (parseJMembers f rest).map (fun p => (Json.obj p.1, p.2))
      else if c = '[' then
        match skipWs rest with
        | ']' :: r2 => some (Json.arr [], r2)
        | _ => (parseJItems f rest).map (fun p => (Json.arr p.1, p.2))
      else if c = 't' then
        if "rue".toList.isPrefixOf rest then some (Json.bool true, rest.drop 3) else none
      else if c = 'f' then
        if "alse".toList.isPrefixOf rest then some (Json.bool false, rest.drop 4) else none
      else if c = 'n' then
        if "ull".toList.isPrefixOf rest then some (Json.null, rest.drop 3) else none
      else
        match lexJNumber (c :: rest) with
        | some (lex, r) => some (Json.num lex, r)
        | none => none

/-- One or more `"key" : value` members followed by `,` or the closing brace. -/
def parseJMembers : Nat → List Char → Option (List (List Char × Json) × List Char)
  | 0, _ => none
  | f + 1, l =>
    match skipWs l with
    | '"' :: rest =>
      match parseJString rest with
      | none => none
      | some (key, r1) =>
        match skipWs r1 with
        | ':' :: r2 =>
          match parseJValue f r2 with
          | none => none
          | some (v, r3) =>
            match skipWs r3 with
            | ',' :: r4 => (parseJMembers f r4).map (fun p => ((key, v) :: p.1, p.2))
            | '\x7d' :: r4 => some ([(key, v)], r4)
            | _ => none
        | _ => none
    | _ => none

/-- One or more array items followed by `,` or the closing bracket. -/
def parseJItems : Nat → List Char → Option (List Json × List Char)
  | 0, _ => none
  | f + 1, l =>
    match parseJValue f l with
    | none => none
    | some (v, r1) =>
      match skipWs r1 with
      | ',' :: r2 => (parseJItems f r2).map (fun p => (v :: p.1, p.2))
      | ']' :: r2 => some ([v], r2)
      | _ => none

end

/-- Model of the platform `JSON.parse`: `none` models a thrown `SyntaxError`.
The fuel is generous: every nesting or iteration level of the grammar
consumes at least one character. -/
def jsonParse (l : List Char) : Option Json :=
  match parseJValue (2 * l.length + 8) l with
  | some (v, rest) => if skipWs rest = [] then some v else none
  | none => none

/-- JS property read `j[key]` on a parsed value: `none` is `undefined`.
Later duplicate keys win, matching `JSON.parse`. Reading a property of
`null` throws in JS; callers that can receive `null` model that throw
separately (`jMember`). -/
def jGet (j : Json) (key : List Char) : Option Json :=
  match j with
  | .obj fields => ((fields.reverse).find? (fun kv => kv.1 == key)).map (fun kv => kv.2)
  | _ => none

/-- JS property read including the `TypeError` on `null` (member access on
`null` throws; on other non-objects it yields `undefined`). -/
def jMember (j : Json) (key : List Char) : Except (List Char) (Option Json) :=
  match j with
  | .null => .error "TypeError: Cannot read properties of null".toList
  | .obj fields => .ok (((fields.reverse).find? (fun kv => kv.1 == key)).map (fun kv => kv.2))
  | _ => .ok none

/-- Whether the mantissa of a JSON number lexeme is nonzero (JS truthiness
of the numeric value). -/
def numNonZero (lex : List Char) : Bool :=
  ((lex.takeWhile (fun c => !((c == 'e') || (c == 'E')))).filter Char.isDigit).any
    (fun c => !(c == '0'))

/-- JS truthiness of a property-read result (`undefined` is falsy). -/
def truthy : Option Json → Bool
  | none => false
  | some .null => false
  | some (.bool b) => b
  | some (.str s) => !s.isEmpty
  | some (.num lex) => numNonZero lex
  | some (.arr _) => true
  | some (.obj _) => true

/-! ## Action extractors (`PromptFactory`)

The regex `/<tool_call>\s*(\{[\s\S]*?\})\s*<\/tool_call>/` is modelled by
its backtracking semantics: the engine tries successive start positions
left to right; at a position, the literal start tag must match, the greedy
`\s*` is deterministic (whitespace and the following literal are disjoint),
the lazy group takes the shortest expansion, and the trailing
`\s*</tool_call>` after the closing brace is again deterministic. -/

/-- Match `\s*</tool_call>` at the head; returns the rest after the tag. -/
def stripToolCallClose (l : List Char) : Option (List Char) :=
  if "</tool_call>".toList.isPrefixOf (l.dropWhile wsChar) then
    some ((l.dropWhile wsChar).drop 12)
  else none

/-- Lazy search for the end of the braced payload: the shortest split
`(content, rest)` of the input as `content ++ closingBrace ++ ws* ++
endTag ++ rest`. -/
def findPayloadEnd : List Char → Option (List Char × List Char)
  | [] => none
  | c :: rest =>
    if c = '\x7d' then
      match stripToolCallClose rest with
      | some after => some ([], after)
      | none => (findPayloadEnd rest).map (fun p => (c :: p.1, p.2))
    else (findPayloadEnd rest).map (fun p => (c :: p.1, p.2))

/-- The tool-call regex tried at the head of the input: the capture group
(with its braces) and the rest of the input after the whole match. -/
def tcMatchAt (s : List Char) : Option (List Char × List Char) :=
  if "<tool_call>".toList.isPrefixOf s then
    if ((s.drop 11).dropWhile wsChar).take 1 = ['\x7b'] then
      (findPayloadEnd (((s.drop 11).dropWhile wsChar).drop 1)).map
        (fun p => ('\x7b' :: p.1 ++ ['\x7d'], p.2))
    else none
  else none

/-- The first match of the tool-call regex (`String.prototype.match`
without the `g` flag): captured payload of the leftmost match. -/
def tcFirstMatch : List Char → Option (List Char)
  | [] => none
  | c :: rest =>
    match tcMatchAt (c :: rest) with
    | some p => some p.1
    | none => tcFirstMatch rest

theorem length_dropWhile_le (p : Char → Bool) (l : List Char) :
    (l.dropWhile p).length ≤ l.length :=
  (List.dropWhile_sublist p).length_le

theorem stripToolCallClose_le {l r : List Char} (h : stripToolCallClose l = some r) :
    r.length ≤ l.length := by
  unfold stripToolCallClose at h
  split at h
  · cases h
    have h1 : (l.dropWhile wsChar).length ≤ l.length := length_dropWhile_le wsChar l
    simp only [List.length_drop]
    omega
  · exact Option.noConfusion h

theorem findPayloadEnd_le {l c r : List Char}
    (h : findPayloadEnd l = some (c, r)) : r.length ≤ l.length := by
  induction l generalizing c r with
  | nil => simp [findPayloadEnd] at h
  | cons a rest ih =>
    unfold findPayloadEnd at h
    by_cases ha : a = '\x7d'
    · simp only [ha, if_true] at h
      rcases hs : stripToolCallClose rest with _ | after
      · rw [hs] at h
        rw [Option.map_eq_some'] at h
        obtain ⟨p, hp, he⟩ := h
        simp only [Prod.mk.injEq] at he
        obtain ⟨he1, he2⟩ := he
        subst he2
        have := @ih p.1 p.2 (by rw [hp])
        simp only [List.length_cons]
        omega
      · rw [hs] at h
        simp only [Option.some.injEq, Prod.mk.injEq] at h
        obtain ⟨h1, h2⟩ := h
        subst h2
        have := stripToolCallClose_le hs
        simp only [List.length_cons]
        omega
    · simp only [ha, if_false] at h
      rw [Option.map_eq_some'] at h
      obtain ⟨p, hp, he⟩ := h
      simp only [Prod.mk.injEq] at he
      obtain ⟨he1, he2⟩ := he
      subst he2
      have := @ih p.1 p.2 (by rw [hp])
      simp only [List.length_cons]
      omega

theorem tcMatchAt_rest_lt {s pay rest : List Char} (h : tcMatchAt s = some (pay, rest)) :
    rest.length < s.length := by
  unfold tcMatchAt at h
  split at h
  · rename_i hpre
    have hs : 11 ≤ s.length := by
      have := List.IsPrefix.length_le (List.isPrefixOf_iff_prefix.mp hpre)
      simpa using this
    split at h
    · rw [Option.map_eq_some'] at h
      obtain ⟨p, hp, he⟩ := h
      simp only [Prod.mk.injEq] at he
      obtain ⟨he1, he2⟩ := he
      subst he2
      have h1 := @findPayloadEnd_le _ p.1 p.2 (by rw [hp])
      have h2 : ((s.drop 11).dropWhile wsChar).length ≤ (s.drop 11).length :=
        length_dropWhile_le wsChar (s.drop 11)
      simp only [List.length_drop] at h1 h2 ⊢
      omega
    · exact Option.noConfusion h
  · exact Option.noConfusion h

/-- The successive non-overlapping matches of the `g`-flag regex loop of
`parseFileOperations`: each search resumes after the previous match. -/
def tcAllMatches : List Char → List (List Char)
  | [] => []
  | c :: rest =>
    match h : tcMatchAt (c :: rest) with
    | some p => p.1 :: tcAllMatches p.2
    | none => tcAllMatches rest
termination_by s => s.length
decreasing_by
  · have := @tcMatchAt_rest_lt _ p.1 p.2 (by rw [h])
    simpa using this
  · simp

/-- `PromptFactory.parseToolCall`, payload validation step: `JSON.parse`
then the `parsed.name && parsed.arguments` truthiness check; the whole
parsed object is returned. -/
def toolCallOfPayload (payload : List Char) : Option Json :=
  match jsonParse payload with
  | none => none
  | some j =>
    if truthy (jGet j "name".toList) && truthy (jGet j "arguments".toList) then some j
    else none

/-- `PromptFactory.parseToolCall`. -/
def parseToolCall (s : List Char) : Option Json :=
  (tcFirstMatch s).bind toolCallOfPayload

/-- The capture of the first match of `/<plan>\s*([\s\S]*?)\s*<\/plan>/`:
the span between the first `<plan>` and the first subsequent `</plan>`,
with surrounding whitespace absorbed by the greedy `\s*`s (equivalently:
trimmed). `none` when no such pair exists. -/
def planPayload (s : List Char) : Option (List Char) :=
  (firstOccur "<plan>".toList s).bind fun i =>
    (firstOccur "</plan>".toList (s.drop (i + 6))).map fun j =>
      trimChars ((s.drop (i + 6)).take j)

/-- `PromptFactory.parsePlan`: `JSON.parse` of the captured payload,
returned whenever `Array.isArray` holds (elements are not validated). -/
def parsePlan (s : List Char) : Option (List Json) :=
  (planPayload s).bind fun payload =>
    match jsonParse payload with
    | some (.arr xs) => some xs
    | _ => none

/-- The greedy-then-backtracking tail `\s*(.+\n)` of
`stripFilePathComment`'s pattern, with `.+` greedy and deterministic:
match `.+\n` at the head of `u` and return the rest. -/
def matchDotPlusNl (u : List Char) : Option (List Char) :=
  let j := (u.takeWhile (fun c => !(c == '\n'))).length
  if 1 ≤ j ∧ j < u.length then some (u.drop (j + 1)) else none

/-- Backtracking of the greedy `\s*` before `.+\n`: try consuming `k`
whitespace characters, largest first. -/
def spcBacktrack (t : List Char) : Nat → Option (List Char)
  | 0 => matchDotPlusNl t
  | k + 1 =>
    match matchDotPlusNl (t.drop (k + 1)) with
    | some rest => some rest
    | none => spcBacktrack t k

/-- `PromptFactory.stripFilePathComment`: replace the first match of
`/^(?:\/\/|#|--)\s*[Ff]ile:\s*.+\n/` by the empty string. -/
def stripFilePathComment (content : List Char) : List Char :=
  let afterMarker : Option (List Char) :=
    if "//".toList.isPrefixOf content then some (content.drop 2)
    else if "#".toList.isPrefixOf content then some (content.drop 1)
    else if "--".toList.isPrefixOf content then some (content.drop 2)
    else none
  let res : Option (List Char) :=
    afterMarker.bind fun t =>
      let t1 := t.dropWhile wsChar
      let afterFile : Option (List Char) :=
        if "File:".toList.isPrefixOf t1 then some (t1.drop 5)
        else if "file:".toList.isPrefixOf t1 then some (t1.drop 5)
        else none
      afterFile.bind fun u => spcBacktrack u (u.takeWhile wsChar).length
  match res with
  | some rest => rest
  | none => content

/-! ## Tool executor (`ToolHandler`)

The file system, the process host and the path module are external; they
are modelled as an oracle record. `Except` return types model exceptions:
the source wraps `_readFile`/`_writeFile` bodies in `try`/`catch` (so they
always return a result), while the property reads `args.file_path` /
`args.command` in `execute` and the synchronous argument validation of
`child_process.exec` happen outside any `catch` and can propagate. -/

inductive RStatus
  | success
  | error
deriving DecidableEq, Repr

structure IToolResult where
  output : List Char
  status : RStatus
deriving DecidableEq, Repr

/-- Outcome of `child_process.exec` for a (string) command: captured
streams and the optional error with its optional `code`. -/
structure CmdOutcome where
  stdout : List Char
  stderr : List Char
  err : Option (Option Int)
deriving Repr

structure FsEnv where
  readFile : List Char → Except (List Char) (List Char)
  statDir : List Char → Bool
  createDir : List Char → Except (List Char) Unit
  writeFile : List Char → List Char → Except (List Char) Unit
  runCmd : List Char → CmdOutcome

/-- `Array.prototype.join(sep)`. -/
def joinWith (sep : List Char) : List (List Char) → List Char
  | [] => []
  | [x] => x
  | x :: xs => x ++ sep ++ joinWith sep xs

def natToChars (n : Nat) : List Char := Nat.toDigits 10 n

def intToChars (i : Int) : List Char :=
  if i < 0 then '-' :: natToChars i.natAbs else natToChars i.natAbs

def isAbsolutePath (p : List Char) : Bool :=
  match p with
  | '/' :: _ => true
  | _ => false

/-- `ToolHandler._resolveFilePath` (`path.join(workspaceRoot, filePath)`,
without the path-normalization the claims never exercise). -/
def resolveFilePath (root p : List Char) : List Char :=
  if isAbsolutePath p then p else root ++ '/' :: p

/-- `path.dirname` (common cases; claims do not exercise the corner
cases). -/
def dirname (p : List Char) : List Char :=
  match p.reverse.dropWhile (fun c => !(c == '/')) with
  | [] => ".".toList
  | _ :: rest =>
    match rest with
    | [] => "/".toList
    | _ => rest.reverse

mutual

/-- JS string coercion of a dynamic value inside a template literal. -/
def jsonToDisplay : Json → List Char
  | .null => "null".toList
  | .bool b => if b then "true".toList else "false".toList
  | .num lex => lex
  | .str s => s
  | .arr xs => jsonListDisplay xs
  | .obj _ => "[object Object]".toList

/-- `Array.prototype.toString`: elements joined with `,`; `null` renders
empty. -/
def jsonListDisplay : List Json → List Char
  | [] => []
  | [x] =>
    match x with
    | .null => []
    | x => jsonToDisplay x
  | x :: xs =>
    (match x with
     | .null => ([] : List Char)
     | x => jsonToDisplay x) ++ ',' :: jsonListDisplay xs

end

/-- `j.str s` equality with a string literal (JS `===`). -/
def jsonIsStr (j : Json) (s : String) : Bool :=
  match j with
  | .str t => t == s.toList
  | _ => false

/-- `ToolHandler._readFile` applied to the dynamic `args.file_path` value
(`none` is `undefined`). Every failure, including the `TypeError` of
`path.isAbsolute` on a non-string, is caught and reported. -/
def readFileTool (fs : FsEnv) (root : List Char) (fp : Option Json) : IToolResult :=
  match fp with
  | some (.str p) =>
    match fs.readFile (resolveFilePath root p) with
    | .ok content => { output := content, status := .success }
    | .error m => { output := "Failed to read file: ".toList ++ m, status := .error }
  | _ =>
    { output := "Failed to read file: The path argument must be of type string".toList,
      status := .error }

/-- `ToolHandler._writeFile`: resolve, strip a leading file-path comment,
ensure the parent directory (stat, else create), write; every failure is
caught and reported as an error result. -/
def writeFileTool (fs : FsEnv) (root : List Char) (fp content : Option Json) : IToolResult :=
  match fp, content with
  | some (.str p), some (.str c) =>
    match (if fs.statDir (dirname (resolveFilePath root p)) then Except.ok ()
           else fs.createDir (dirname (resolveFilePath root p))) with
    | .error m => { output := "Failed to write file: ".toList ++ m, status := .error }
    | .ok _ =>
      match fs.writeFile (resolveFilePath root p) (stripFilePathComment c) with
      | .ok _ => { output := "File written: ".toList ++ p, status := .success }
      | .error m => { output := "Failed to write file: ".toList ++ m, status := .error }
  | _, _ =>
    { output := "Failed to write file: invalid arguments".toList, status := .error }

/-- `ToolHandler._runCommand`: `exec` with captured output. A non-string
command fails `exec`'s synchronous argument validation, which rejects the
returned promise (modelled as `Except.error`); command failures (nonzero
exit, timeout, overflow) arrive through the callback and are resolved as
error results. -/
def runCommandTool (fs : FsEnv) (cmd : Option Json) : Except (List Char) IToolResult :=
  match cmd with
  | some (.str c) =>
    let r := fs.runCmd c
    let parts : List (List Char) :=
      (if trimChars r.stdout ≠ [] then [trimChars r.stdout] else []) ++
      (if trimChars r.stderr ≠ [] then ["stderr: ".toList ++ trimChars r.stderr] else [])
    let output := if parts.isEmpty then "(no output)".toList else joinWith "\n".toList parts
    match r.err with
    | none => .ok { output := output, status := .success }
    | some code =>
      .ok { output := output ++ "\nExit code: ".toList ++ intToChars (code.getD 1),
            status := .error }
  | _ => .error "TypeError: The command argument must be of type string".toList

/-- `ToolHandler.execute`: dispatch on the (dynamic) tool name. The
property reads on `args` happen before entering the tools' own
`try`/`catch`, so a `null` `args` propagates a `TypeError`. -/
def ToolHandler.execute (fs : FsEnv) (root : List Char) (toolName : Json) (args : Json) :
    Except (List Char) IToolResult :=
  if jsonIsStr toolName "read_file" then
    (jMember args "file_path".toList).map (readFileTool fs root)
  else if jsonIsStr toolName "write_file" then
    (jMember args "file_path".toList).bind fun fp =>
      (jMember args "content".toList).map fun ct => writeFileTool fs root fp ct
  else if jsonIsStr toolName "run_command" then
    (jMember args "command".toList).bind fun cmd => runCommandTool fs cmd
  else
    .ok { output := "Unknown tool: ".toList ++ jsonToDisplay toolName, status := .error }

/-! ## Orchestration state machine (`AgentLoop`)

The loop is single-threaded and event-driven; its suspension points
(awaiting the model reply, awaiting approval, awaiting the tool) consume an
explicit oracle in program order. `streamChunk` events (the per-fragment
forwarding of the transport callback) are transport-detail and omitted; the
`execCall` trace entry marks the invocation of `ToolHandler.execute`. -/

inductive Status
  | pending
  | in_progress
  | done
deriving DecidableEq, Repr

structure PlanTask where
  id : Int
  task : List Char
  status : Status
deriving DecidableEq, Repr

inductive AgentState
  | IDLE
  | THINKING
  | WAITING_FOR_TOOL
  | EXECUTING
deriving DecidableEq, Repr

inductive Role
  | user
  | assistant
deriving DecidableEq, Repr

structure ChatMsg where
  role : Role
  content : List Char
deriving DecidableEq, Repr

inductive AgentEvent
  | taskStarted (t : PlanTask)
  | taskCompleted (t : PlanTask)
  | taskFailed (t : PlanTask) (error : List Char)
  | loopFinished
  | streamDone (content : List Char)
  | waitingForTool (toolCall : Json)
  | approvalResolved (approved : Bool)
  | execCall (name args : Json)
  | toolExecuted (result : IToolResult)
  | stateChanged (state : AgentState)
deriving Repr

/-- The status marker of the plan-context lines. -/
def statusMark : Status → List Char
  | .done => "[x]".toList
  | .in_progress => "[>]".toList
  | .pending => "[ ]".toList

def planContext (plan : List PlanTask) : List Char :=
  joinWith "\n".toList (plan.map fun t =>
    "  ".toList ++ statusMark t.status ++ ' ' :: intToChars t.id ++ ". ".toList ++ t.task)

def initialPrompt (plan : List PlanTask) (task : PlanTask) : List Char :=
  "## Current Plan\n".toList ++ planContext plan ++
  "\n\n## Current Task\nTask #".toList ++ intToChars task.id ++ ": ".toList ++ task.task ++
  "\n\nPlease implement this task. Use tool calls to read, write files and run commands. Remember: ONE tool call per response, then STOP and wait for the result.".toList

/-- `10240`-character output ceiling with the fixed truncation marker. -/
def truncateOutput (out : List Char) : List Char :=
  if out.length > 10240 then out.take 10240 ++ "\n...(truncated)".toList else out

/-- The synthetic rejected tool-result message. -/
def rejectedToolResultMsg : ChatMsg :=
  { role := .user,
    content := "<tool_result>\nStatus: Rejected\nThe user rejected this tool call.\n</tool_result>".toList }

/-- The synthetic tool-result message fed back after an execution. -/
def toolResultMsg (r : IToolResult) : ChatMsg :=
  { role := .user,
    content := "<tool_result>\nOutput: ".toList ++ truncateOutput r.output ++
      "\nStatus: ".toList ++
      (if r.status = .success then "Success".toList else "Error".toList) ++
      "\n</tool_result>".toList }

/-- Outcome of the suspension `await this._waitForToolApproval()`: resolved
with `true` by `approveToolExecution`, with `false` by
`rejectToolExecution`, or with `false` by `stop()` (which also clears the
running flag). -/
inductive Decision
  | approve
  | reject
  | stopSig
deriving DecidableEq, Repr

/-- External oracle for one `_executeTask` call, indexed by turn. -/
structure TaskEnv where
  resp : Nat → Except (List Char) (List Char)
  dec : Nat → Decision
  exec : Json → Json → Except (List Char) IToolResult

structure TaskOut where
  events : List AgentEvent
  history : List ChatMsg
  running : Bool
  failure : Option (List Char)
deriving Repr

/-- The turn loop of `_executeTask` from turn index `turn` with `fuel`
turns left out of `MAX_TOOL_TURNS = 20`. Events are listed in emission
order; `failure` is a propagated exception. -/
def execTaskGo (env : TaskEnv) (running : Bool) (turn : Nat) (history : List ChatMsg) :
    Nat → TaskOut
  | 0 => { events := [], history := history, running := running, failure := none }
  | fuel + 1 =>
    if running then
      match env.resp turn with
      | .error e =>
        { events := [.stateChanged .THINKING], history := history, running := running,
          failure := some e }
      | .ok response =>
        match parseToolCall response with
        | none =>
          { events := [.stateChanged .THINKING, .streamDone response],
            history := history ++ [{ role := .assistant, content := response }],
            running := running, failure := none }
        | some tc =>
          let nm := (jGet tc "name".toList).getD .null
          let args := (jGet tc "arguments".toList).getD .null
          let hist1 := history ++ [{ role := .assistant, content := response }]
          match env.dec turn with
          | .reject =>
            { events := [.stateChanged .THINKING, .streamDone response,
                .stateChanged .WAITING_FOR_TOOL, .waitingForTool tc, .approvalResolved false],
              history := hist1 ++ [rejectedToolResultMsg], running := running, failure := none }
          | .stopSig =>
            { events := [.stateChanged .THINKING, .streamDone response,
                .stateChanged .WAITING_FOR_TOOL, .waitingForTool tc, .approvalResolved false],
              history := hist1 ++ [rejectedToolResultMsg], running := false, failure := none }
          | .approve =>
            match env.exec nm args with
            | .error e =>
              { events := [.stateChanged .THINKING, .streamDone response,
                  .stateChanged .WAITING_FOR_TOOL, .waitingForTool tc,
                  .approvalResolved true, .stateChanged .EXECUTING, .execCall nm args],
                history := hist1, running := running, failure := some e }
            | .ok r =>
              let tailOut := execTaskGo env running (turn + 1) (hist1 ++ [toolResultMsg r]) fuel
              { events := [.stateChanged .THINKING, .streamDone response,
                  .stateChanged .WAITING_FOR_TOOL, .waitingForTool tc,
                  .approvalResolved true, .stateChanged .EXECUTING, .execCall nm args,
                  .toolExecuted r] ++ tailOut.events,
                history := tailOut.history, running := tailOut.running,
                failure := tailOut.failure }
    else { events := [], history := history, running := running, failure := none }

/-- `AgentLoop._executeTask`: seed the history with the task prompt and run
up to 20 turns. -/
def execTask (env : TaskEnv) (plan : List PlanTask) (task : PlanTask) : TaskOut :=
  execTaskGo env true 0 [{ role := .user, content := initialPrompt plan task }] 20

/-- `plan.find(t => t.status === 'pending')`, with its index. -/
def firstPending : List PlanTask → Option (Nat × PlanTask)
  | [] => none
  | t :: ts =>
    if t.status = .pending then some (0, t)
    else (firstPending ts).map (fun p => (p.1 + 1, p.2))

structure RunOut where
  events : List AgentEvent
  snapshots : List (List PlanTask)
  plan : List PlanTask
deriving Repr

/-- The `while (this._running)` plan loop of `AgentLoop.run`. `remaining`
is `maxIterations - iterations`; `k` counts `_executeTask` calls (indexing
the per-task oracle); `snapshots` are the plan values passed to
`updatePlan`, in call order. -/
def runGo (env : Nat → TaskEnv) : Bool → List PlanTask → Nat → Nat → RunOut
  | false, plan, _, _ => { events := [], snapshots := [], plan := plan }
  | true, plan, _, 0 => { events := [.loopFinished], snapshots := [], plan := plan }
  | true, plan, k, remaining + 1 =>
    match firstPending plan with
    | none => { events := [.loopFinished], snapshots := [], plan := plan }
    | some (i, t) =>
      let t1 : PlanTask := { t with status := .in_progress }
      let plan1 := plan.set i t1
      let out := execTask (env k) plan1 t1
      match out.failure with
      | none =>
        let t2 : PlanTask := { t with status := .done }
        let plan2 := plan1.set i t2
        let tailOut := runGo env out.running plan2 (k + 1) remaining
        { events := [.taskStarted t1] ++ out.events ++ [.taskCompleted t2] ++ tailOut.events,
          snapshots := [plan1, plan2] ++ tailOut.snapshots,
          plan := tailOut.plan }
      | some e =>
        let t2 : PlanTask := { t with status := .pending }
        let plan2 := plan1.set i t2
        { events := [.taskStarted t1] ++ out.events ++ [.taskFailed t2 e],
          snapshots := [plan1, plan2],
          plan := plan2 }

/-- `AgentLoop.run`: start running, loop over the plan, and at the end (the
`finally` block) clear the flag and set state `IDLE`. -/
def AgentLoop.run (env : Nat → TaskEnv) (plan : List PlanTask) (maxIterations : Nat) : RunOut :=
  let out := runGo env true plan 0 maxIterations
  { events := out.events ++ [.stateChanged .IDLE], snapshots := out.snapshots,
    plan := out.plan }

/-! ## The approval/stop control operations -/

/-- The control state of `AgentLoop`: the `_running` flag and whether
`_toolApprovalResolve` / `_reviewResolve` hold a pending resolver. -/
structure LoopSt where
  running : Bool
  toolApproval : Bool
  review : Bool
deriving DecidableEq, Repr

/-- Result of an external control operation: the new control state, the
events emitted through `_onEvent`, and the values delivered to a suspended
`_waitForToolApproval` promise. -/
structure OpOut where
  st : LoopSt
  events : List AgentEvent
  approvals : List Bool
deriving Repr

/-- `AgentLoop.approveToolExecution`. -/
def approveToolExecution (s : LoopSt) : OpOut :=
  if s.toolApproval then
    { st := { s with toolApproval := false }, events := [], approvals := [true] }
  else { st := s, events := [], approvals := [] }

/-- `AgentLoop.rejectToolExecution`. -/
def rejectToolExecution (s : LoopSt) : OpOut :=
  if s.toolApproval then
    { st := { s with toolApproval := false }, events := [], approvals := [false] }
  else { st := s, events := [], approvals := [] }

/-- `AgentLoop.stop`: clear the running flag and unblock any waiting
promise (the approval one with `false`). -/
def AgentLoop.stop (s : LoopSt) : OpOut :=
  { st := { running := false, toolApproval := false, review := false },
    events := [],
    approvals := if s.toolApproval then [false] else [] }

/-! ## Trace checkers used by the claims -/

/-- Every `execCall` in the trace is immediately preceded by
`approvalResolved true` and the `EXECUTING` transition. -/
def execApprovedChk : List AgentEvent → Bool
  | [] => true
  | .approvalResolved true :: .stateChanged .EXECUTING :: .execCall _ _ :: rest =>
    execApprovedChk rest
  | .execCall _ _ :: _ => false
  | _ :: rest => execApprovedChk rest

/-- After an `approvalResolved false` the task's turn loop emits nothing
further. -/
def afterRejectEnds : List AgentEvent → Bool
  | [] => true
  | .approvalResolved false :: rest => rest.isEmpty
  | _ :: rest => afterRejectEnds rest

/-- Whether the trace contains a rejection resolution. -/
def hasRejection : List AgentEvent → Bool
  | [] => false
  | .approvalResolved false :: _ => true
  | _ :: rest => hasRejection rest

/-- At most one `execCall` per `THINKING` transition (per turn); `seen`
is whether the current turn already executed. -/
def atMostOnePerTurn (seen : Bool) : List AgentEvent → Bool
  | [] => true
  | .stateChanged .THINKING :: rest => atMostOnePerTurn false rest
  | .execCall _ _ :: rest => !seen && atMostOnePerTurn true rest
  | _ :: rest => atMostOnePerTurn seen rest

/-- No `stateChanged IDLE` strictly between a point and the next
`taskStarted`: scans forward, vacuously true when no task starts. -/
def idleBeforeTaskStart : List AgentEvent → Bool
  | [] => true
  | .stateChanged .IDLE :: _ => true
  | .taskStarted _ :: _ => false
  | _ :: rest => idleBeforeTaskStart rest

/-- The claim's reading of the C7 property: after every `taskCompleted`, a
`stateChanged IDLE` is observed before any subsequent `taskStarted`. -/
def eachTaskCompleteIdle : List AgentEvent → Bool
  | [] => true
  | .taskCompleted _ :: rest => idleBeforeTaskStart rest && eachTaskCompleteIdle rest
  | _ :: rest => eachTaskCompleteIdle rest

/-- Number of `stateChanged IDLE` events in a trace. -/
def countIdleEvents : List AgentEvent → Nat
  | [] => 0
  | .stateChanged .IDLE :: rest => countIdleEvents rest + 1
  | _ :: rest => countIdleEvents rest

/-- After a `taskFailed` the run halts: the only further event is the final
`IDLE` transition. -/
def afterFailHalts : List AgentEvent → Bool
  | [] => true
  | .taskFailed _ _ :: rest =>
    match rest with
    | [.stateChanged .IDLE] => true
    | _ => false
  | _ :: rest => afterFailHalts rest

/-- Number of tasks in `in_progress` state. -/
def countInProgress (plan : List PlanTask) : Nat :=
  (plan.filter (fun t => decide (t.status = .in_progress))).length

/-! # Theorems

## Search-function lemmas -/

theorem firstIdx_some_lt {c : Char} {l : List Char} {i : Nat}
    (h : firstIdx c l = some i) : i < l.length := by
  induction l generalizing i with
  | nil => simp [firstIdx] at h
  | cons a t ih =>
    unfold firstIdx at h
    by_cases ha : a = c
    · simp only [ha, if_true] at h
      cases h
      simp
    · simp only [ha, if_false] at h
      rw [Option.map_eq_some'] at h
      obtain ⟨j, hj, he⟩ := h
      subst he
      have := ih hj
      simp only [List.length_cons]
      omega

theorem firstIdx_append_some {c : Char} {a : List Char} {i : Nat} (b : List Char)
    (h : firstIdx c a = some i) : firstIdx c (a ++ b) = some i := by
  induction a generalizing i with
  | nil => simp [firstIdx] at h
  | cons x t ih =>
    rw [List.cons_append]
    unfold firstIdx at h ⊢
    by_cases hx : x = c
    · simp only [hx, if_true] at h ⊢
      exact h
    · simp only [hx, if_false] at h ⊢
      rw [Option.map_eq_some'] at h
      obtain ⟨j, hj, he⟩ := h
      rw [ih hj]
      simp [he]

theorem firstIdx_append_none {c : Char} {a : List Char} (b : List Char)
    (h : firstIdx c a = none) :
    firstIdx c (a ++ b) = (firstIdx c b).map (· + a.length) := by
  induction a with
  | nil =>
    simp only [List.nil_append, List.length_nil]
    cases firstIdx c b <;> simp
  | cons x t ih =>
    unfold firstIdx at h
    by_cases hx : x = c
    · rw [if_pos hx] at h
      exact Option.noConfusion h
    · rw [if_neg hx, Option.map_eq_none'] at h
      rw [List.cons_append]
      have hstep : firstIdx c (x :: (t ++ b)) = (firstIdx c (t ++ b)).map (· + 1) := by
        simp only [firstIdx]
        rw [if_neg hx]
      rw [hstep, ih h]
      cases firstIdx c b with
      | none => simp
      | some v =>
        simp only [Option.map_some', List.length_cons, Option.some.injEq]
        omega

theorem firstIdx_drop {c : Char} {l : List Char} {i : Nat}
    (h : firstIdx c l = some i) : ∃ t, l.drop i = c :: t := by
  induction l generalizing i with
  | nil => simp [firstIdx] at h
  | cons a t ih =>
    unfold firstIdx at h
    by_cases ha : a = c
    · simp only [ha, if_true] at h
      cases h
      exact ⟨t, by simp [ha]⟩
    · simp only [ha, if_false] at h
      rw [Option.map_eq_some'] at h
      obtain ⟨j, hj, he⟩ := h
      subst he
      obtain ⟨u, hu⟩ := ih hj
      exact ⟨u, by simpa using hu⟩

theorem firstOccur_eq_some_iff {pat l : List Char} {i : Nat} :
    firstOccur pat l = some i ↔
      pat <+: l.drop i ∧ ∀ j, j < i → ¬ pat <+: l.drop j := by
  induction l generalizing i with
  | nil =>
    unfold firstOccur
    by_cases hp : pat = []
    · rw [if_pos hp]
      subst hp
      constructor
      · intro h
        cases h
        exact ⟨List.nil_prefix, fun j hj => absurd hj (Nat.not_lt_zero j)⟩
      · rintro ⟨-, hmin⟩
        rcases Nat.eq_zero_or_pos i with h0 | h0
        · simp [h0]
        · exact absurd List.nil_prefix (hmin 0 h0)
    · rw [if_neg hp]
      constructor
      · intro h
        exact Option.noConfusion h
      · rintro ⟨hpre, -⟩
        rw [List.drop_nil] at hpre
        exact absurd (List.prefix_nil.mp hpre) hp
  | cons a t ih =>
    unfold firstOccur
    by_cases hp : pat.isPrefixOf (a :: t) = true
    · have hpP : pat <+: (a :: t) := List.isPrefixOf_iff_prefix.mp hp
      rw [if_pos hp]
      constructor
      · intro h
        cases h
        exact ⟨by simpa using hpP, fun j hj => absurd hj (Nat.not_lt_zero j)⟩
      · rintro ⟨-, hmin⟩
        rcases Nat.eq_zero_or_pos i with h0 | h0
        · simp [h0]
        · exact absurd (by simpa using hpP) (hmin 0 h0)
    · have hpP : ¬ pat <+: (a :: t) := fun hc => hp (List.isPrefixOf_iff_prefix.mpr hc)
      rw [if_neg hp]
      constructor
      · intro h
        rw [Option.map_eq_some'] at h
        obtain ⟨j, hj, he⟩ := h
        subst he
        obtain ⟨hpre, hmin⟩ := ih.mp hj
        refine ⟨by simpa using hpre, ?_⟩
        intro j' hj'
        match j' with
        | 0 => simpa using hpP
        | j'' + 1 =>
          have : j'' < j := by omega
          simpa using hmin j'' this
      · rintro ⟨hpre, hmin⟩
        match i with
        | 0 => exact absurd (by simpa using hpre) hpP
        | i' + 1 =>
          have : firstOccur pat t = some i' := by
            apply ih.mpr
            refine ⟨by simpa using hpre, ?_⟩
            intro j hj
            have := hmin (j + 1) (by omega)
            simpa using this
          rw [this]
          simp

theorem firstOccur_eq_none_iff {pat l : List Char} (hp : pat ≠ []) :
    firstOccur pat l = none ↔ ∀ i, ¬ pat <+: l.drop i := by
  induction l with
  | nil =>
    unfold firstOccur
    rw [if_neg hp]
    constructor
    · intro _ i hpre
      rw [List.drop_nil] at hpre
      exact hp (List.prefix_nil.mp hpre)
    · intro _
      rfl
  | cons a t ih =>
    unfold firstOccur
    by_cases hpre : pat.isPrefixOf (a :: t) = true
    · have hpreP : pat <+: (a :: t) := List.isPrefixOf_iff_prefix.mp hpre
      rw [if_pos hpre]
      constructor
      · intro h
        exact Option.noConfusion h
      · intro h
        exact absurd (by simpa using hpreP) (h 0)
    · have hpreP : ¬ pat <+: (a :: t) := fun hc => hpre (List.isPrefixOf_iff_prefix.mpr hc)
      rw [if_neg hpre]
      rw [Option.map_eq_none', ih]
      constructor
      · intro h i
        match i with
        | 0 => simpa using hpreP
        | i' + 1 => simpa using h i'
      · intro h i
        simpa using h (i + 1)

theorem firstOccur_append_some {pat a : List Char} {i : Nat} (b : List Char)
    (h : firstOccur pat a = some i) : firstOccur pat (a ++ b) = some i := by
  obtain ⟨hpre, hmin⟩ := firstOccur_eq_some_iff.mp h
  have hi : i ≤ a.length := by
    by_contra hc
    push_neg at hc
    rw [List.drop_eq_nil_of_le (Nat.le_of_lt hc)] at hpre
    have : pat = [] := List.prefix_nil.mp hpre
    subst this
    exact absurd (List.nil_prefix) (hmin 0 (by omega))
  apply firstOccur_eq_some_iff.mpr
  constructor
  · rw [List.drop_append_of_le_length hi]
    exact hpre.trans (List.prefix_append _ _)
  · intro j hj
    have hj' : j ≤ a.length := by omega
    rw [List.drop_append_of_le_length hj']
    intro hc
    rcases Nat.lt_or_ge (j + pat.length) (a.length + 1) with hcase | hcase
    · have hlen : pat.length ≤ (a.drop j).length := by
        simp only [List.length_drop]
        omega
      have : pat <+: a.drop j := by
        rw [List.prefix_iff_eq_take] at hc ⊢
        rwa [List.take_append_of_le_length hlen] at hc
      exact hmin j hj this
    · -- the occurrence would overhang the end of `a`, impossible since an
      -- occurrence inside `a` exists at `i ≥ j` with `i + |pat| ≤ |a|`
      have hilen : i + pat.length ≤ a.length := by
        have := hpre.length_le
        simp only [List.length_drop] at this
        omega
      omega

theorem firstOccur_some_le {pat l : List Char} {i : Nat}
    (h : firstOccur pat l = some i) (hp : pat ≠ []) : i + pat.length ≤ l.length := by
  obtain ⟨hpre, -⟩ := firstOccur_eq_some_iff.mp h
  have h1 := hpre.length_le
  simp only [List.length_drop] at h1
  by_cases hi : i ≤ l.length
  · omega
  · rw [List.drop_eq_nil_of_le (by omega)] at hpre
    exact absurd (List.prefix_nil.mp hpre) hp

/-! ## Hold-back (longest delimiter-prefix suffix) lemmas -/

theorem holdBackAux_le (ct buf : List Char) (n : Nat) : holdBackAux ct buf n ≤ n := by
  induction n with
  | zero => simp [holdBackAux]
  | succ m ih =>
    unfold holdBackAux
    split
    · exact Nat.le_refl _
    · exact Nat.le_trans ih (Nat.le_succ m)

theorem holdBackAux_le_length (ct buf : List Char) (n : Nat) :
    holdBackAux ct buf n ≤ buf.length := by
  induction n with
  | zero => simp [holdBackAux]
  | succ m ih =>
    unfold holdBackAux
    split
    · next hcond => exact hcond.1
    · exact ih

theorem holdBackAux_spec (ct buf : List Char) (n : Nat) :
    holdBackAux ct buf n = 0 ∨
      (1 ≤ holdBackAux ct buf n ∧ ct.take (holdBackAux ct buf n) <:+ buf) := by
  induction n with
  | zero =>
    left
    simp [holdBackAux]
  | succ m ih =>
    unfold holdBackAux
    split
    · next hcond =>
      right
      exact ⟨by omega, List.isSuffixOf_iff_suffix.mp hcond.2⟩
    · exact ih

theorem holdBackAux_max {ct buf : List Char} {n k : Nat} (h1 : 1 ≤ k) (h2 : k ≤ n)
    (h3 : k ≤ buf.length) (h4 : ct.take k <:+ buf) :
    k ≤ holdBackAux ct buf n := by
  induction n with
  | zero => omega
  | succ m ih =>
    unfold holdBackAux
    split
    · next hcond => exact h2
    · next hcond =>
      rcases Nat.lt_or_ge k (m + 1) with hk | hk
      · exact ih (by omega)
      · exfalso
        have hkm : k = m + 1 := by omega
        subst hkm
        exact hcond ⟨h3, List.isSuffixOf_iff_suffix.mpr h4⟩

theorem holdBackLen_le_len (ct buf : List Char) : holdBackLen ct buf ≤ buf.length :=
  holdBackAux_le_length ct buf (ct.length - 1)

theorem holdBackLen_le (ct buf : List Char) : holdBackLen ct buf ≤ ct.length - 1 :=
  holdBackAux_le ct buf (ct.length - 1)

theorem holdBackLen_spec (ct buf : List Char) :
    holdBackLen ct buf = 0 ∨
      (1 ≤ holdBackLen ct buf ∧ ct.take (holdBackLen ct buf) <:+ buf) :=
  holdBackAux_spec ct buf (ct.length - 1)

theorem holdBackLen_max {ct buf : List Char} {k : Nat} (h1 : 1 ≤ k)
    (h2 : k ≤ ct.length - 1) (h4 : ct.take k <:+ buf) : k ≤ holdBackLen ct buf := by
  have hklen : (ct.take k).length = k := by
    rw [List.length_take]
    omega
  have h3 : k ≤ buf.length := by
    have := h4.length_le
    rwa [hklen] at this
  exact holdBackAux_max h1 h2 h3 h4

/-! ## Shift lemmas for the compositionality proof -/

theorem drop_append_shift {raw b : List Char} {m : Nat} (j : Nat) (hm : m ≤ raw.length) :
    (raw ++ b).drop (m + j) = (raw.drop m ++ b).drop j := by
  rw [← List.drop_drop, List.drop_append_of_le_length hm]

theorem take_append_shift {raw b : List Char} {m : Nat} (j : Nat) (hm : m ≤ raw.length) :
    (raw ++ b).take (m + j) = raw.take m ++ (raw.drop m ++ b).take j := by
  have hlen : (raw.take m).length = m := by
    rw [List.length_take]
    omega
  calc (raw ++ b).take (m + j)
      = (raw.take m ++ (raw.drop m ++ b)).take ((raw.take m).length + j) := by
        rw [← List.append_assoc, List.take_append_drop, hlen]
    _ = raw.take m ++ (raw.drop m ++ b).take j := List.take_append j

/-- No occurrence of `ct` in `raw ++ b` can start before the split point
`raw.length - holdBackLen ct raw`: a fully-inside occurrence contradicts
`firstOccur ct raw = none`, an overhanging one contradicts the maximality
of the held-back suffix. -/
theorem no_occurrence_below_keep {ct raw : List Char} (b : List Char) (hct : ct ≠ [])
    (hno : firstOccur ct raw = none) :
    ∀ j, j < raw.length - holdBackLen ct raw → ¬ ct <+: (raw ++ b).drop j := by
  intro j hj hpre
  have hbl_len := holdBackLen_le_len ct raw
  have hjraw : j < raw.length := by omega
  rw [List.drop_append_of_le_length (by omega)] at hpre
  rcases Nat.lt_or_ge (j + ct.length) (raw.length + 1) with hcase | hcase
  · have hlen : ct.length ≤ (raw.drop j).length := by
      simp only [List.length_drop]
      omega
    have hin : ct <+: raw.drop j := by
      rw [List.prefix_iff_eq_take] at hpre ⊢
      rwa [List.take_append_of_le_length hlen] at hpre
    exact (firstOccur_eq_none_iff hct).mp hno j hin
  · have hctpos : 1 ≤ ct.length := List.length_pos.mpr hct
    have hq1 : 1 ≤ raw.length - j := by omega
    have hq2 : raw.length - j ≤ ct.length - 1 := by omega
    have hdlen : (raw.drop j).length = raw.length - j := by
      simp [List.length_drop]
    have heq : ct.take (raw.length - j) = raw.drop j := by
      rw [List.prefix_iff_eq_take] at hpre
      have h5 : ct.take (raw.length - j) = ((raw.drop j ++ b).take ct.length).take (raw.length - j) := by
        rw [← hpre]
      rw [List.take_take, Nat.min_eq_left (by omega)] at h5
      rw [h5, List.take_append_of_le_length (by omega)]
      exact List.take_of_length_le (by omega)
    have hsuf : ct.take (raw.length - j) <:+ raw := heq ▸ List.drop_suffix j raw
    have := holdBackLen_max hq1 hq2 hsuf
    omega

/-- Transfer of the first occurrence across the hold-back split: searching
in `raw ++ b` is searching in `hold ++ b` shifted by the emitted length. -/
theorem firstOccur_holdBack_append {ct raw : List Char} (b : List Char) (hct : ct ≠ [])
    (hno : firstOccur ct raw = none) :
    firstOccur ct (raw ++ b) =
      (firstOccur ct (raw.drop (raw.length - holdBackLen ct raw) ++ b)).map
        (· + (raw.length - holdBackLen ct raw)) := by
  have hshift : ∀ j, (raw ++ b).drop ((raw.length - holdBackLen ct raw) + j) =
      (raw.drop (raw.length - holdBackLen ct raw) ++ b).drop j :=
    fun j => drop_append_shift j (Nat.sub_le _ _)
  cases hfo : firstOccur ct (raw.drop (raw.length - holdBackLen ct raw) ++ b) with
  | none =>
    simp only [Option.map_none']
    rw [firstOccur_eq_none_iff hct]
    intro i hpre
    rcases Nat.lt_or_ge i (raw.length - holdBackLen ct raw) with hi | hi
    · exact no_occurrence_below_keep b hct hno i hi hpre
    · have hrw : i = (raw.length - holdBackLen ct raw) + (i - (raw.length - holdBackLen ct raw)) := by
        omega
      rw [hrw, hshift] at hpre
      exact (firstOccur_eq_none_iff hct).mp hfo _ hpre
  | some j =>
    simp only [Option.map_some']
    obtain ⟨hpre, hmin⟩ := firstOccur_eq_some_iff.mp hfo
    rw [firstOccur_eq_some_iff]
    constructor
    · rw [show j + (raw.length - holdBackLen ct raw) =
          (raw.length - holdBackLen ct raw) + j by omega, hshift]
      exact hpre
    · intro j' hj'
      rcases Nat.lt_or_ge j' (raw.length - holdBackLen ct raw) with hlt | hge
      · exact no_occurrence_below_keep b hct hno j' hlt
      · have hrw : j' = (raw.length - holdBackLen ct raw) + (j' - (raw.length - holdBackLen ct raw)) := by
          omega
        rw [hrw, hshift]
        exact hmin _ (by omega)

theorem suffix_append_right {x y : List Char} (b : List Char) (h : x <:+ y) :
    x ++ b <:+ y ++ b := by
  obtain ⟨t, ht⟩ := h
  exact ⟨t, by rw [← List.append_assoc, ht]⟩

/-- A candidate held-back length is a suffix of `raw ++ b` exactly when it
is a suffix of `hold ++ b`. -/
theorem holdBack_cond_iff {ct raw b : List Char} {k : Nat} (h1 : 1 ≤ k)
    (h2 : k ≤ ct.length - 1) :
    (ct.take k <:+ raw ++ b ↔
      ct.take k <:+ raw.drop (raw.length - holdBackLen ct raw) ++ b) := by
  have hbl_len := holdBackLen_le_len ct raw
  have hklen : (ct.take k).length = k := by
    rw [List.length_take]
    omega
  constructor
  · intro hs
    have hlen_le : k ≤ raw.length + b.length := by
      have := hs.length_le
      rw [hklen, List.length_append] at this
      exact this
    have hholdlen : (raw.drop (raw.length - holdBackLen ct raw)).length = holdBackLen ct raw := by
      simp only [List.length_drop]
      omega
    rcases le_or_lt k (holdBackLen ct raw + b.length) with hk | hk
    · apply List.suffix_of_suffix_length_le hs
        (suffix_append_right b (List.drop_suffix _ raw))
      rw [hklen, List.length_append, hholdlen]
      exact hk
    · exfalso
      have hq1 : 1 ≤ k - b.length := by omega
      have hq2 : k - b.length ≤ ct.length - 1 := by omega
      have hqraw : k - b.length ≤ raw.length := by omega
      have he := List.suffix_iff_eq_drop.mp hs
      rw [hklen, List.length_append] at he
      have harith : raw.length + b.length - k = raw.length - (k - b.length) := by omega
      rw [harith, List.drop_append_of_le_length (Nat.sub_le _ _)] at he
      have hdroplen : (raw.drop (raw.length - (k - b.length))).length = k - b.length := by
        simp only [List.length_drop]
        omega
      have heq : ct.take (k - b.length) = raw.drop (raw.length - (k - b.length)) := by
        have h5 : ct.take (k - b.length) = (ct.take k).take (k - b.length) := by
          rw [List.take_take, Nat.min_eq_left (by omega)]
        rw [h5, he, List.take_append_of_le_length (by omega)]
        exact List.take_of_length_le (by omega)
      have hsuf : ct.take (k - b.length) <:+ raw := heq ▸ List.drop_suffix _ raw
      have := holdBackLen_max hq1 hq2 hsuf
      omega
  · intro hs
    exact hs.trans (suffix_append_right b (List.drop_suffix _ raw))

/-- Transfer of the held-back length across the hold-back split. -/
theorem holdBackLen_holdBack_append (ct raw b : List Char) :
    holdBackLen ct (raw ++ b) =
      holdBackLen ct (raw.drop (raw.length - holdBackLen ct raw) ++ b) := by
  apply Nat.le_antisymm
  · rcases holdBackLen_spec ct (raw ++ b) with h0 | ⟨h1, hsuf⟩
    · rw [h0]
      exact Nat.zero_le _
    · exact holdBackLen_max h1 (holdBackLen_le ct (raw ++ b))
        ((holdBack_cond_iff h1 (holdBackLen_le ct (raw ++ b))).mp hsuf)
  · rcases holdBackLen_spec ct (raw.drop (raw.length - holdBackLen ct raw) ++ b) with h0 | ⟨h1, hsuf⟩
    · rw [h0]
      exact Nat.zero_le _
    · exact holdBackLen_max h1 (holdBackLen_le ct _)
        ((holdBack_cond_iff h1 (holdBackLen_le ct _)).mpr hsuf)

/-! ## Process-loop lemmas -/

theorem process_stuck {p q : AgentParser} (h : pstep p = .stuck q) :
    processAgentBuffer p = q := by
  rw [processAgentBuffer]
  split
  · next q' h' =>
    rw [h] at h'
    cases h'
    rfl
  · next q' h' =>
    rw [h] at h'
    exact StepRes.noConfusion h'

theorem process_cont {p q : AgentParser} (h : pstep p = .cont q) :
    processAgentBuffer p = processAgentBuffer q := by
  rw [processAgentBuffer]
  split
  · next q' h' =>
    rw [h] at h'
    exact StepRes.noConfusion h'
  · next q' h' =>
    rw [h] at h'
    cases h'
    rfl

/-- Two states with equal step results process to the same final state. -/
theorem process_congr {p₁ p₂ : AgentParser} (h : pstep p₁ = pstep p₂) :
    processAgentBuffer p₁ = processAgentBuffer p₂ := by
  cases hs : pstep p₂ with
  | stuck q => rw [process_stuck (h.trans hs), process_stuck hs]
  | cont q => rw [process_cont (h.trans hs), process_cont hs]

theorem pstep_cont_append {p q : AgentParser} (b : List Char) (h : pstep p = .cont q) :
    pstep { p with raw := p.raw ++ b } = .cont { q with raw := q.raw ++ b } := by
  obtain ⟨st, raw, content, events⟩ := p
  unfold pstep at h
  by_cases hr : raw = []
  · rw [if_pos hr] at h
    exact StepRes.noConfusion h
  · rw [if_neg hr] at h
    have hne : raw ++ b ≠ [] := fun hc => hr (List.append_eq_nil.mp hc).1
    unfold pstep
    rw [if_neg hne]
    cases st with
    | idle =>
      simp only at h ⊢
      rcases ho : firstIdx '<' raw with _ | oi
      · simp only [ho] at h
        exact StepRes.noConfusion h
      · simp only [ho] at h
        have hoi := firstIdx_some_lt ho
        have hdropext : (raw ++ b).drop oi = raw.drop oi ++ b :=
          List.drop_append_of_le_length (Nat.le_of_lt hoi)
        simp only [firstIdx_append_some b ho]
        rw [hdropext]
        rcases hc : firstIdx '>' (raw.drop oi) with _ | ci
        · simp only [hc] at h
          exact StepRes.noConfusion h
        · simp only [hc] at h
          have hci := firstIdx_some_lt hc
          have htake : (raw.drop oi ++ b).take ci = (raw.drop oi).take ci :=
            List.take_append_of_le_length (Nat.le_of_lt hci)
          have hdrop2 : (raw.drop oi ++ b).drop (ci + 1) = (raw.drop oi).drop (ci + 1) ++ b :=
            List.drop_append_of_le_length hci
          simp only [firstIdx_append_some b hc]
          rw [htake, hdrop2]
          rcases ht : tagOfName (trimChars (((raw.drop oi).take ci).drop 1)) with _ | k
          · simp only [ht] at h ⊢
            cases h
            rfl
          · simp only [ht] at h ⊢
            cases h
            rfl
    | inTag k =>
      simp only at h ⊢
      rcases hc : firstOccur (closingTag k) raw with _ | ci
      · simp only [hc] at h
        exact StepRes.noConfusion h
      · simp only [hc] at h
        have hle : ci + (closingTag k).length ≤ raw.length :=
          firstOccur_some_le hc (by cases k <;> decide)
        have htake : (raw ++ b).take ci = raw.take ci :=
          List.take_append_of_le_length (by omega)
        have hdrop : (raw ++ b).drop (ci + (closingTag k).length) =
            raw.drop (ci + (closingTag k).length) ++ b :=
          List.drop_append_of_le_length hle
        simp only [firstOccur_append_some b hc]
        rw [htake, hdrop]
        cases h
        rfl

theorem pstep_stuck_append {p s : AgentParser} (b : List Char) (h : pstep p = .stuck s) :
    pstep { p with raw := p.raw ++ b } = pstep { s with raw := s.raw ++ b } := by
  obtain ⟨st, raw, content, events⟩ := p
  unfold pstep at h
  by_cases hr : raw = []
  · rw [if_pos hr] at h
    cases h
    rfl
  · rw [if_neg hr] at h
    have hne : raw ++ b ≠ [] := fun hc => hr (List.append_eq_nil.mp hc).1
    cases st with
    | idle =>
      simp only at h
      rcases ho : firstIdx '<' raw with _ | oi
      · -- no start delimiter: the buffer is fully drained
        simp only [ho] at h
        cases h
        show pstep ⟨.idle, raw ++ b, content, events⟩ = pstep ⟨.idle, [] ++ b, content, events⟩
        rw [List.nil_append]
        by_cases hb : b = []
        · subst hb
          rw [List.append_nil]
          unfold pstep
          rw [if_neg hr, if_pos rfl]
          simp only [ho]
        · unfold pstep
          rw [if_neg hne, if_neg hb]
          simp only
          rw [firstIdx_append_none b ho]
          cases hfb : firstIdx '<' b with
          | none =>
            simp only [Option.map_none']
          | some j =>
            simp only [Option.map_some']
            have hdropb : (raw ++ b).drop (j + raw.length) = b.drop j := by
              rw [Nat.add_comm, List.drop_append]
            rw [hdropb]
      · simp only [ho] at h
        rcases hc : firstIdx '>' (raw.drop oi) with _ | ci
        · -- start delimiter, no closing angle yet: keep from the delimiter on
          simp only [hc] at h
          cases h
          have hoi := firstIdx_some_lt ho
          obtain ⟨t, ht⟩ := firstIdx_drop ho
          have hne2 : raw.drop oi ++ b ≠ [] := by
            rw [ht]
            simp
          show pstep ⟨.idle, raw ++ b, content, events⟩ =
            pstep ⟨.idle, raw.drop oi ++ b, content, events⟩
          unfold pstep
          rw [if_neg hne, if_neg hne2]
          simp only
          have h0 : firstIdx '<' (raw.drop oi ++ b) = some 0 := by
            rw [ht, List.cons_append]
            simp [firstIdx]
          simp only [firstIdx_append_some b ho, h0]
          have hdropext : (raw ++ b).drop oi = raw.drop oi ++ b :=
            List.drop_append_of_le_length (Nat.le_of_lt hoi)
          rw [hdropext, List.drop_zero]
        · simp only [hc] at h
          rcases ht2 : tagOfName (trimChars (((raw.drop oi).take ci).drop 1)) with _ | k <;>
              simp only [ht2] at h <;> exact StepRes.noConfusion h
    | inTag k =>
      simp only at h
      rcases hc : firstOccur (closingTag k) raw with _ | ci
      · -- no closing tag: withhold the longest delimiter-prefix suffix
        simp only [hc] at h
        cases h
        have hct : closingTag k ≠ [] := by cases k <;> decide
        have hbl_len := holdBackLen_le_len (closingTag k) raw
        show pstep ⟨.inTag k, raw ++ b, content, events⟩ =
          pstep ⟨.inTag k, raw.drop (raw.length - holdBackLen (closingTag k) raw) ++ b,
            content ++ raw.take (raw.length - holdBackLen (closingTag k) raw), events⟩
        by_cases hhb : raw.drop (raw.length - holdBackLen (closingTag k) raw) ++ b = []
        · obtain ⟨hh0, hb0⟩ := List.append_eq_nil.mp hhb
          subst hb0
          rw [List.append_nil, List.append_nil]
          unfold pstep
          rw [if_neg hr, if_pos hh0]
          simp only [hc]
        · unfold pstep
          rw [if_neg hne, if_neg hhb]
          simp only
          rw [firstOccur_holdBack_append b hct hc]
          cases hfo : firstOccur (closingTag k)
              (raw.drop (raw.length - holdBackLen (closingTag k) raw) ++ b) with
          | none =>
            simp only [Option.map_none']
            rw [holdBackLen_holdBack_append (closingTag k) raw b]
            have hbl2_len := holdBackLen_le_len (closingTag k)
              (raw.drop (raw.length - holdBackLen (closingTag k) raw) ++ b)
            have hholdlen : (raw.drop (raw.length - holdBackLen (closingTag k) raw)).length =
                holdBackLen (closingTag k) raw := by
              simp only [List.length_drop]
              omega
            have hlen2_eq : (raw.drop (raw.length - holdBackLen (closingTag k) raw) ++ b).length =
                holdBackLen (closingTag k) raw + b.length := by
              rw [List.length_append, hholdlen]
            rw [hlen2_eq] at hbl2_len
            have harith : (raw ++ b).length -
                holdBackLen (closingTag k)
                  (raw.drop (raw.length - holdBackLen (closingTag k) raw) ++ b) =
                (raw.length - holdBackLen (closingTag k) raw) +
                ((raw.drop (raw.length - holdBackLen (closingTag k) raw) ++ b).length -
                  holdBackLen (closingTag k)
                    (raw.drop (raw.length - holdBackLen (closingTag k) raw) ++ b)) := by
              rw [List.length_append, hlen2_eq]
              omega
            rw [harith, drop_append_shift _ (Nat.sub_le _ _),
              take_append_shift _ (Nat.sub_le _ _), ← List.append_assoc]
          | some j =>
            simp only [Option.map_some']
            have h1 : (raw ++ b).take (j + (raw.length - holdBackLen (closingTag k) raw)) =
                raw.take (raw.length - holdBackLen (closingTag k) raw) ++
                  (raw.drop (raw.length - holdBackLen (closingTag k) raw) ++ b).take j := by
              rw [Nat.add_comm, take_append_shift _ (Nat.sub_le _ _)]
            have h2 : (raw ++ b).drop
                (j + (raw.length - holdBackLen (closingTag k) raw) + (closingTag k).length) =
                (raw.drop (raw.length - holdBackLen (closingTag k) raw) ++ b).drop
                  (j + (closingTag k).length) := by
              rw [show j + (raw.length - holdBackLen (closingTag k) raw) + (closingTag k).length =
                  (raw.length - holdBackLen (closingTag k) raw) + (j + (closingTag k).length)
                  by omega]
              exact drop_append_shift _ (Nat.sub_le _ _)
            rw [h1, h2, ← List.append_assoc]
      · simp only [hc] at h
        exact StepRes.noConfusion h

/-- Appending further input commutes with processing: the central
compositionality property of the incremental parser. -/
theorem process_append (p : AgentParser) (b : List Char) :
    processAgentBuffer { processAgentBuffer p with raw := (processAgentBuffer p).raw ++ b } =
      processAgentBuffer { p with raw := p.raw ++ b } := by
  cases h : pstep p with
  | stuck q =>
    rw [process_stuck h]
    exact (process_congr (pstep_stuck_append b h)).symm
  | cont q =>
    rw [process_cont h]
    have hrec := process_append q b
    rw [hrec]
    exact (process_cont (pstep_cont_append b h)).symm
termination_by p.raw.length
decreasing_by exact pstep_cont_lt h

theorem appendAgentChunk_append (p : AgentParser) (a b : List Char) :
    appendAgentChunk (appendAgentChunk p a) b = appendAgentChunk p (a ++ b) := by
  unfold appendAgentChunk
  rw [process_append { p with raw := p.raw ++ a } b, List.append_assoc]

theorem feedAll_eq_single (p : AgentParser) (frags : List (List Char)) :
    feedAll (processAgentBuffer p) frags =
      processAgentBuffer { p with raw := p.raw ++ frags.flatten } := by
  induction frags generalizing p with
  | nil =>
    rw [List.flatten_nil, List.append_nil]
    rfl
  | cons c cs ih =>
    show feedAll (appendAgentChunk (processAgentBuffer p) c) cs = _
    have hstep : appendAgentChunk (processAgentBuffer p) c =
        processAgentBuffer { p with raw := p.raw ++ c } := process_append p c
    rw [hstep, ih { p with raw := p.raw ++ c }, List.flatten_cons, ← List.append_assoc]

theorem processFueled_eq {n : Nat} {p : AgentParser} (h : p.raw.length < n) :
    processFueled n p = processAgentBuffer p := by
  induction n generalizing p with
  | zero => omega
  | succ m ih =>
    unfold processFueled
    cases hs : pstep p with
    | stuck q =>
      rw [process_stuck hs]
    | cont q =>
      have hlt := pstep_cont_lt hs
      show processFueled m q = processAgentBuffer p
      rw [ih (by omega), process_cont hs]

/-- Evaluation form of `appendAgentChunk` for concrete inputs. -/
theorem appendAgentChunk_eval (p : AgentParser) (chunk : List Char) :
    appendAgentChunk p chunk =
      processFueled ((p.raw ++ chunk).length + 1) { p with raw := p.raw ++ chunk } :=
  (processFueled_eq (show (p.raw ++ chunk).length < (p.raw ++ chunk).length + 1 from
    Nat.lt_succ_self _)).symm

/-- **C2** (confirmed): split-boundary invariance of the stream segment
parser. Feeding any fragment sequence in order and then finalizing yields
exactly the same sequence of finalized (segment type, accumulated content)
pairs as feeding the whole concatenated text as a single fragment: the
parser result depends only on the concatenation of the fragments. This
covers every split of a complete response at arbitrary character
boundaries into two or more fragments. -/
theorem C2_split_boundary_invariance (frags : List (List Char)) :
    (finalizeStream (feedAll initParser frags)).events =
      (finalizeStream (appendAgentChunk initParser frags.flatten)).events := by
  have h1 : processAgentBuffer initParser = initParser := process_stuck rfl
  have h2 := feedAll_eq_single initParser frags
  rw [h1] at h2
  rw [h2]
  rfl

/-! ## C5: end-of-stream finalization -/

def c5Input : List Char := "<thinking>abc".toList

/-- The action-extraction step of `finalizeAgentTag` for a closed
`tool_call` segment: `JSON.parse(fullContent.trim())` inside `try`/`catch`;
a parse failure is logged and produces no action (and no exception). -/
def finalizeToolCallAction (content : List Char) : Option Json :=
  jsonParse (trimChars content)

/-- **C5 counterexample** (claim as stated is false): after the stream
`"<thinking>abc"` a segment is still open (state `thinking`, accumulated
content `"abc"`), yet end-of-stream finalization emits no finalized
segment at all — the claimed force-close does not happen, because
`finalizeStream` skips `finalizeAgentTag` whenever the withheld raw buffer
is empty. The claim predicts the finalized pair `(thinking, "abc")`. -/
theorem C5_counterexample :
    (appendAgentChunk initParser c5Input).state = PState.inTag TagKind.thinking ∧
    (appendAgentChunk initParser c5Input).content = "abc".toList ∧
    (appendAgentChunk initParser c5Input).raw = [] ∧
    (finalizeStream (appendAgentChunk initParser c5Input)).events = [] := by
  rw [appendAgentChunk_eval]
  refine ⟨?_, ?_, ?_, ?_⟩ <;> rfl

/-- **C5** (amended): end-of-stream finalization force-closes a still-open
segment only when the withheld raw buffer is nonempty, finalizing it with
the accumulated content followed by the withheld characters; when the raw
buffer is empty the open segment is silently dropped. A closed `tool_call`
segment whose payload fails JSON parsing produces no action and no fatal
error, and a response whose first regex match has an unparsable payload
yields no action for the turn. -/
theorem C5_flush_and_malformed_payload :
    (∀ p k, p.state = PState.inTag k → p.raw ≠ [] →
      (finalizeStream p).events = p.events ++ [(k, p.content ++ p.raw)]) ∧
    (∀ p k, p.state = PState.inTag k → p.raw = [] →
      (finalizeStream p).events = p.events) ∧
    (∀ content, jsonParse (trimChars content) = none → finalizeToolCallAction content = none) ∧
    (∀ s payload, tcFirstMatch s = some payload → jsonParse payload = none →
      parseToolCall s = none) := by
  refine ⟨?_, ?_, ?_, ?_⟩
  · intro p k hst hraw
    unfold finalizeStream
    simp only [hst]
    rw [if_neg hraw]
  · intro p k hst hraw
    unfold finalizeStream
    simp only [hst]
    rw [if_pos hraw]
  · intro content h
    unfold finalizeToolCallAction
    exact h
  · intro s payload hm hj
    unfold parseToolCall
    rw [hm]
    show toolCallOfPayload payload = none
    unfold toolCallOfPayload
    rw [hj]

/-- Witness for the amended C5 at concrete inputs. -/
theorem C5_flush_and_malformed_payload_witness :
    (finalizeStream ⟨PState.inTag TagKind.tcall, "ab".toList, "cd".toList, []⟩).events =
      [(TagKind.tcall, "cdab".toList)] ∧
    parseToolCall "<tool_call>\x7bbad\x7d</tool_call>".toList = none := by
  constructor
  · have h := C5_flush_and_malformed_payload.1
      ⟨PState.inTag TagKind.tcall, "ab".toList, "cd".toList, []⟩ TagKind.tcall rfl (by decide)
    simpa using h
  · exact C5_flush_and_malformed_payload.2.2.2 _ "\x7bbad\x7d".toList (by rfl) (by rfl)

/-! ## C4: truncation exactness -/

/-- **C4** (confirmed): in the executing step, an `ActionResult.output` of
length `L > 10240` is embedded into the synthetic tool-result message as
exactly its first 10240 characters followed by the fixed marker
`"\n...(truncated)"`; an output of length `L ≤ 10240` is embedded
unchanged. -/
theorem C4_truncation_exactness (out : List Char) (st : RStatus) :
    (out.length > 10240 →
      truncateOutput out = out.take 10240 ++ "\n...(truncated)".toList ∧
      (out.take 10240).length = 10240) ∧
    (out.length ≤ 10240 → truncateOutput out = out) ∧
    (toolResultMsg ⟨out, st⟩).content =
      "<tool_result>\nOutput: ".toList ++ truncateOutput out ++ "\nStatus: ".toList ++
        (if st = RStatus.success then "Success".toList else "Error".toList) ++
        "\n</tool_result>".toList := by
  refine ⟨?_, ?_, rfl⟩
  · intro h
    unfold truncateOutput
    rw [if_pos h]
    refine ⟨rfl, ?_⟩
    rw [List.length_take]
    omega
  · intro h
    unfold truncateOutput
    rw [if_neg (by omega)]

/-- Witness for C4 at a concrete long output and a concrete short one. -/
theorem C4_truncation_exactness_witness :
    (List.replicate 10241 'a').length > 10240 ∧
    truncateOutput (List.replicate 10241 'a') =
      List.replicate 10240 'a' ++ "\n...(truncated)".toList ∧
    truncateOutput "ok".toList = "ok".toList := by
  have h1 : (List.replicate 10241 'a').length > 10240 := by
    rw [List.length_replicate]
    omega
  refine ⟨h1, ?_, ?_⟩
  · have h2 := (C4_truncation_exactness (List.replicate 10241 'a') RStatus.success).1 h1
    rw [h2.1, List.take_replicate]
    norm_num
  · exact (C4_truncation_exactness "ok".toList RStatus.success).2.1 (by decide)

/-! ## C8: plan extraction -/

/-- The claim's notion of the first structural delimiter pair: the span
between the first opening tag and the first subsequent closing tag. -/
def firstDelimPayload (openTag closeTag s : List Char) : Option (List Char) :=
  (firstOccur openTag s).bind fun i =>
    (firstOccur closeTag (s.drop (i + openTag.length))).map fun j =>
      (s.drop (i + openTag.length)).take j

/-- The claim's element-shape requirement (modelled from the spec words):
a plan element must carry the keys `id`, `task` and `status`. -/
def planElemHasKeys (j : Json) : Bool :=
  ((jGet j "id".toList).isSome && (jGet j "task".toList).isSome) &&
    (jGet j "status".toList).isSome

def c8Input : List Char := "<plan>[1]</plan>".toList

/-- **C8 counterexample** (claim as stated is false): `parsePlan` returns
the array parsed from `"<plan>[1]</plan>"` even though its element `1`
carries none of the required keys `id`, `task`, `status`; the claim
predicts that such a payload is discarded silently and none returned. -/
theorem C8_counterexample :
    parsePlan c8Input = some [Json.num ['1']] ∧
    planElemHasKeys (Json.num ['1']) = false := by
  constructor <;> rfl

/-- **C8** (amended): `parsePlan` returns the ordered task list whenever
the text contains a `<plan>` delimiter pair whose (trimmed) payload parses
as a JSON array — with no validation of the elements' shape; for any
payload that is not a JSON array (or fails to parse), and when no
delimiter pair exists, it returns none. -/
theorem C8_parsePlan_array_only (s : List Char) :
    parsePlan s =
      ((firstDelimPayload "<plan>".toList "</plan>".toList s).map trimChars).bind
        fun payload =>
          match jsonParse payload with
          | some (.arr xs) => some xs
          | _ => none := by
  have hp : planPayload s =
      (firstDelimPayload "<plan>".toList "</plan>".toList s).map trimChars := by
    unfold planPayload firstDelimPayload
    have h6 : ("<plan>".toList).length = 6 := rfl
    simp only [h6]
    cases h1 : firstOccur "<plan>".toList s with
    | none => rfl
    | some i =>
      simp only [Option.some_bind]
      cases h2 : firstOccur "</plan>".toList (s.drop (i + 6)) with
      | none => rfl
      | some j => rfl
  unfold parsePlan
  rw [hp]

/-! ## C3: first-match action extraction and at-most-one execution -/

theorem tcAllMatches_nil : tcAllMatches [] = [] := by
  rw [tcAllMatches]

theorem tcAllMatches_cons_some {c : Char} {rest : List Char} {p : List Char × List Char}
    (h : tcMatchAt (c :: rest) = some p) :
    tcAllMatches (c :: rest) = p.1 :: tcAllMatches p.2 := by
  rw [tcAllMatches]
  split
  · next p' h' =>
    rw [h] at h'
    cases h'
    rfl
  · next h' =>
    rw [h] at h'
    exact Option.noConfusion h'

theorem tcAllMatches_cons_none {c : Char} {rest : List Char}
    (h : tcMatchAt (c :: rest) = none) :
    tcAllMatches (c :: rest) = tcAllMatches rest := by
  rw [tcAllMatches]
  split
  · next p' h' =>
    rw [h] at h'
    exact Option.noConfusion h'
  · next h' =>
    rfl

/-- The single-match extraction returns exactly the head of the `g`-flag
match sequence. -/
theorem tcFirstMatch_eq_head (s : List Char) :
    tcFirstMatch s = (tcAllMatches s).head? := by
  induction s with
  | nil => rw [tcAllMatches_nil]; rfl
  | cons c rest ih =>
    cases h : tcMatchAt (c :: rest) with
    | some p =>
      rw [tcAllMatches_cons_some h]
      unfold tcFirstMatch
      simp only [h]
      rfl
    | none =>
      rw [tcAllMatches_cons_none h]
      unfold tcFirstMatch
      simp only [h]
      exact ih

/-- The possible event traces of the turn loop of `_executeTask`, one
constructor per loop exit or iteration. -/
inductive TurnTrace : List AgentEvent → Prop
  | empty : TurnTrace []
  | failTurn : TurnTrace [.stateChanged .THINKING]
  | noAction (r : List Char) : TurnTrace [.stateChanged .THINKING, .streamDone r]
  | rejected (r : List Char) (tc : Json) :
      TurnTrace [.stateChanged .THINKING, .streamDone r,
        .stateChanged .WAITING_FOR_TOOL, .waitingForTool tc, .approvalResolved false]
  | execFail (r : List Char) (tc nm args : Json) :
      TurnTrace [.stateChanged .THINKING, .streamDone r,
        .stateChanged .WAITING_FOR_TOOL, .waitingForTool tc, .approvalResolved true,
        .stateChanged .EXECUTING, .execCall nm args]
  | execOk (r : List Char) (tc nm args : Json) (res : IToolResult) (rest : List AgentEvent)
      (h : TurnTrace rest) :
      TurnTrace ([.stateChanged .THINKING, .streamDone r,
        .stateChanged .WAITING_FOR_TOOL, .waitingForTool tc, .approvalResolved true,
        .stateChanged .EXECUTING, .execCall nm args, .toolExecuted res] ++ rest)

theorem execTaskGo_trace (env : TaskEnv) (running : Bool) (turn : Nat)
    (history : List ChatMsg) (fuel : Nat) :
    TurnTrace (execTaskGo env running turn history fuel).events := by
  induction fuel generalizing running turn history with
  | zero => exact .empty
  | succ f ih =>
    cases running with
    | false => exact .empty
    | true =>
      unfold execTaskGo
      rw [if_pos rfl]
      rcases hresp : env.resp turn with e | response
      · simp only [hresp]
        exact .failTurn
      · simp only [hresp]
        rcases htc : parseToolCall response with _ | tc
        · simp only [htc]
          exact .noAction response
        · simp only [htc]
          rcases hdec : env.dec turn with _ | _ | _
          · simp only [hdec]
            rcases hexec : env.exec ((jGet tc "name".toList).getD .null)
                ((jGet tc "arguments".toList).getD .null) with e | r
            · simp only [hexec]
              exact .execFail response tc _ _
            · simp only [hexec]
              exact .execOk response tc _ _ r _ (ih _ _ _)
          · simp only [hdec]
            exact .rejected response tc
          · simp only [hdec]
            exact .rejected response tc

/-- The turn loop invokes the executor at most once per turn (one
`execCall` per `THINKING` transition). -/
theorem turnTrace_at_most_one {evs : List AgentEvent} (h : TurnTrace evs) (seen : Bool) :
    atMostOnePerTurn seen evs = true := by
  induction h generalizing seen with
  | empty => rfl
  | failTurn => rfl
  | noAction r => rfl
  | rejected r tc => rfl
  | execFail r tc nm args => rfl
  | execOk r tc nm args res rest hrest ih =>
    simp only [List.cons_append, List.nil_append, atMostOnePerTurn,
      Bool.not_false, Bool.true_and]
    exact ih true

def c3Input : List Char :=
  ("<tool_call>hi</tool_call><tool_call>" ++
    "\x7b\"name\": \"x\", \"arguments\": \x7b\x7d\x7d</tool_call>").toList

/-- **C3 counterexample** (claim as stated is false): in `c3Input` the
first `<tool_call>`-delimited payload is `"hi"`, which is not JSON, so the
claim predicts that `parseToolCall` returns none; but the regex skips the
unbraced first pair and matches the second, so an action is returned. -/
theorem C3_counterexample :
    firstDelimPayload "<tool_call>".toList "</tool_call>".toList c3Input = some "hi".toList ∧
    jsonParse "hi".toList = none ∧
    (parseToolCall c3Input).isSome = true := by
  refine ⟨rfl, rfl, rfl⟩

/-- **C3** (amended): `parseToolCall` acts on the first match of the
tool-call regex — the leftmost position where `<tool_call>`, optional
whitespace, a braced payload (shortest), optional whitespace and
`</tool_call>` match — and returns the parsed object exactly when that
payload is JSON with truthy `name` and `arguments`; matches after the
first are never consulted, so a malformed first payload yields none even
when a later pair is well-formed, while a first pair failing the brace
shape is skipped by the regex itself. The orchestrator's turn loop invokes
the Tool Executor at most once per turn. -/
theorem C3_first_match_and_single_execution :
    (∀ s, parseToolCall s = (tcAllMatches s).head?.bind toolCallOfPayload) ∧
    (∀ env running turn history fuel seen,
      atMostOnePerTurn seen (execTaskGo env running turn history fuel).events = true) := by
  constructor
  · intro s
    unfold parseToolCall
    rw [tcFirstMatch_eq_head]
  · exact fun env running turn history fuel seen =>
      turnTrace_at_most_one (execTaskGo_trace env running turn history fuel) seen

/-! ## C1: no tool execution without approval -/

/-- Every `execCall` in a turn trace is immediately preceded by a positive
approval resolution (and the `EXECUTING` transition). -/
theorem turnTrace_exec_approved {evs : List AgentEvent} (h : TurnTrace evs) :
    execApprovedChk evs = true := by
  induction h with
  | empty => rfl
  | failTurn => rfl
  | noAction r => rfl
  | rejected r tc => rfl
  | execFail r tc nm args => rfl
  | execOk r tc nm args res rest hrest ih =>
    simp only [List.cons_append, List.nil_append, execApprovedChk]
    exact ih

/-- After a rejection resolution the turn loop emits nothing further. -/
theorem turnTrace_after_reject {evs : List AgentEvent} (h : TurnTrace evs) :
    afterRejectEnds evs = true := by
  induction h with
  | empty => rfl
  | failTurn => rfl
  | noAction r => rfl
  | rejected r tc => rfl
  | execFail r tc nm args => rfl
  | execOk r tc nm args res rest hrest ih =>
    simp only [List.cons_append, List.nil_append, afterRejectEnds]
    exact ih

/-- When a rejection occurred, the last history entry is the synthetic
rejected tool-result message. -/
theorem execTaskGo_reject_history (env : TaskEnv) (running : Bool) (turn : Nat)
    (history : List ChatMsg) (fuel : Nat)
    (h : hasRejection (execTaskGo env running turn history fuel).events = true) :
    (execTaskGo env running turn history fuel).history.getLast? =
      some rejectedToolResultMsg := by
  induction fuel generalizing running turn history with
  | zero => simp [execTaskGo, hasRejection] at h
  | succ f ih =>
    cases running with
    | false => simp [execTaskGo, hasRejection] at h
    | true =>
      unfold execTaskGo at h ⊢
      rw [if_pos rfl] at h ⊢
      rcases hresp : env.resp turn with e | response
      · simp only [hresp] at h
        simp [hasRejection] at h
      · simp only [hresp] at h ⊢
        rcases htc : parseToolCall response with _ | tc
        · simp only [htc] at h
          simp [hasRejection] at h
        · simp only [htc] at h ⊢
          rcases hdec : env.dec turn with _ | _ | _
          · simp only [hdec] at h ⊢
            rcases hexec : env.exec ((jGet tc "name".toList).getD .null)
                ((jGet tc "arguments".toList).getD .null) with e | r
            · simp only [hexec] at h
              simp [hasRejection] at h
            · simp only [hexec] at h ⊢
              simp only [List.cons_append, List.nil_append, hasRejection] at h
              exact ih _ _ _ h
          · simp only [hdec]
            exact List.getLast?_concat _
          · simp only [hdec]
            exact List.getLast?_concat _

/-- **C1** (confirmed): in every `_executeTask` run, `ToolHandler.execute`
is invoked only immediately after the approval wait resolved `true`; when
it resolves `false` — by `rejectToolExecution` or by `stop()` while
suspended — no execution happens for that tool call, the turn loop ends
(no further events), and the synthetic rejected tool-result message is the
last entry appended to the conversation history. -/
theorem C1_no_tool_without_approval (env : TaskEnv) (plan : List PlanTask) (task : PlanTask) :
    execApprovedChk (execTask env plan task).events = true ∧
    afterRejectEnds (execTask env plan task).events = true ∧
    (hasRejection (execTask env plan task).events = true →
      (execTask env plan task).history.getLast? = some rejectedToolResultMsg) := by
  refine ⟨turnTrace_exec_approved (execTaskGo_trace env true 0 _ 20),
    turnTrace_after_reject (execTaskGo_trace env true 0 _ 20), ?_⟩
  intro h
  exact execTaskGo_reject_history env true 0 _ 20 h

def c1Env : TaskEnv :=
  { resp := fun _ =>
      .ok "<tool_call>\x7b\"name\": \"x\", \"arguments\": \x7b\x7d\x7d</tool_call>".toList,
    dec := fun _ => .reject,
    exec := fun _ _ => .ok ⟨"ok".toList, .success⟩ }

def c1Task : PlanTask := ⟨1, "t".toList, .in_progress⟩

/-- Witness for C1: a concrete run in which the approval wait resolves
`false`. -/
theorem C1_no_tool_without_approval_witness :
    hasRejection (execTask c1Env [c1Task] c1Task).events = true ∧
    (execTask c1Env [c1Task] c1Task).history.getLast? = some rejectedToolResultMsg := by
  constructor
  · rfl
  · exact (C1_no_tool_without_approval c1Env [c1Task] c1Task).2.2 (by rfl)

/-! ## C7: IDLE transitions -/

theorem countIdleEvents_append (a b : List AgentEvent) :
    countIdleEvents (a ++ b) = countIdleEvents a + countIdleEvents b := by
  induction a with
  | nil => simp [countIdleEvents]
  | cons e rest ih =>
    rw [List.cons_append]
    cases e with
    | stateChanged st =>
      cases st <;> simp only [countIdleEvents, ih] <;> omega
    | taskStarted t => simp only [countIdleEvents, ih]
    | taskCompleted t => simp only [countIdleEvents, ih]
    | taskFailed t e => simp only [countIdleEvents, ih]
    | loopFinished => simp only [countIdleEvents, ih]
    | streamDone c => simp only [countIdleEvents, ih]
    | waitingForTool tc => simp only [countIdleEvents, ih]
    | approvalResolved b => simp only [countIdleEvents, ih]
    | execCall n a2 => simp only [countIdleEvents, ih]
    | toolExecuted r => simp only [countIdleEvents, ih]

/-- The turn loop never emits a `stateChanged IDLE` event. -/
theorem turnTrace_no_idle {evs : List AgentEvent} (h : TurnTrace evs) :
    countIdleEvents evs = 0 := by
  induction h with
  | empty => rfl
  | failTurn => rfl
  | noAction r => rfl
  | rejected r tc => rfl
  | execFail r tc nm args => rfl
  | execOk r tc nm args res rest hrest ih =>
    rw [countIdleEvents_append, ih]
    rfl

theorem execTask_no_idle (env : TaskEnv) (plan : List PlanTask) (task : PlanTask) :
    countIdleEvents (execTask env plan task).events = 0 :=
  turnTrace_no_idle (execTaskGo_trace _ _ _ _ _)

/-- The plan loop never emits a `stateChanged IDLE` event (it is emitted
once, by the `finally` block of `run`). -/
theorem runGo_no_idle (env : Nat → TaskEnv) (running : Bool) (plan : List PlanTask)
    (k remaining : Nat) :
    countIdleEvents (runGo env running plan k remaining).events = 0 := by
  induction remaining generalizing running plan k with
  | zero => cases running <;> rfl
  | succ rem ih =>
    cases running with
    | false => rfl
    | true =>
      unfold runGo
      rcases hfp : firstPending plan with _ | it
      · simp only [hfp]
        rfl
      · simp only [hfp]
        rcases hout : (execTask (env k) (plan.set it.1 { it.2 with status := .in_progress })
            { it.2 with status := .in_progress }).failure with _ | e
        · simp only [hout]
          rw [countIdleEvents_append, countIdleEvents_append, countIdleEvents_append,
            execTask_no_idle, ih]
          rfl
        · simp only [hout]
          rw [countIdleEvents_append, countIdleEvents_append, execTask_no_idle]
          rfl

def c7Env : Nat → TaskEnv := fun _ =>
  { resp := fun _ => .ok "<message>done</message>".toList,
    dec := fun _ => .approve,
    exec := fun _ _ => .ok ⟨"ok".toList, .success⟩ }

def c7Plan : List PlanTask :=
  [⟨1, "t1".toList, .pending⟩, ⟨2, "t2".toList, .pending⟩]

/-- **C7 counterexample** (claim as stated is false): with a two-task plan
whose turns contain no action, the first task completes and the second
task starts with no `stateChanged IDLE` event in between — `IDLE` is set
only once, in the `finally` block at the end of the whole run, so the
claimed per-task transition back to idle is not observable. -/
theorem C7_counterexample :
    eachTaskCompleteIdle (AgentLoop.run c7Env c7Plan 5).events = false := by
  rfl

/-- **C7** (amended): a turn whose reply contains no action ends the
task's turn loop immediately (the task is then completed), but the
orchestrator does not pass through `IDLE` between tasks: `stateChanged
IDLE` is emitted exactly once per run, as its final event. -/
theorem C7_idle_once_at_end (env : Nat → TaskEnv) (plan : List PlanTask) (m : Nat) :
    countIdleEvents (AgentLoop.run env plan m).events = 1 ∧
    (AgentLoop.run env plan m).events.getLast? = some (.stateChanged .IDLE) ∧
    (∀ tenv turn fuel history r, tenv.resp turn = Except.ok r → parseToolCall r = none →
      execTaskGo tenv true turn history (fuel + 1) =
        ⟨[.stateChanged .THINKING, .streamDone r],
          history ++ [⟨.assistant, r⟩], true, none⟩) := by
  refine ⟨?_, ?_, ?_⟩
  · show countIdleEvents ((runGo env true plan 0 m).events ++ [.stateChanged .IDLE]) = 1
    rw [countIdleEvents_append, runGo_no_idle]
    rfl
  · exact List.getLast?_concat _
  · intro tenv turn fuel history r hresp htc
    unfold execTaskGo
    rw [if_pos rfl]
    simp only [hresp, htc]

theorem C7_idle_once_at_end_witness :
    countIdleEvents (AgentLoop.run c7Env c7Plan 5).events = 1 ∧
    (c7Env 0).resp 0 = Except.ok "<message>done</message>".toList ∧
    execTaskGo (c7Env 0) true 0 [] 1 =
      ⟨[.stateChanged .THINKING, .streamDone "<message>done</message>".toList],
        [⟨.assistant, "<message>done</message>".toList⟩], true, none⟩ :=
  ⟨(C7_idle_once_at_end c7Env c7Plan 5).1, rfl,
    (C7_idle_once_at_end c7Env c7Plan 5).2.2 (c7Env 0) 0 0 []
      "<message>done</message>".toList rfl rfl⟩

/-! ## C6: plan-loop invariants -/

theorem countInProgress_cons (t : PlanTask) (ts : List PlanTask) :
    countInProgress (t :: ts) =
      (if t.status = .in_progress then 1 else 0) + countInProgress ts := by
  simp only [countInProgress, List.filter_cons]
  by_cases hp : t.status = .in_progress
  · rw [if_pos hp]
    simp [hp]
    omega
  · rw [if_neg hp]
    simp [hp]

theorem countInProgress_set_le (plan : List PlanTask) (i : Nat) (u : PlanTask) :
    countInProgress (plan.set i u) ≤
      countInProgress plan + (if u.status = .in_progress then 1 else 0) := by
  induction plan generalizing i with
  | nil => simp [countInProgress]
  | cons hd tl ih =>
    cases i with
    | zero =>
      rw [List.set_cons_zero, countInProgress_cons, countInProgress_cons]
      by_cases hu : u.status = .in_progress <;> by_cases hh : hd.status = .in_progress <;>
        simp [hu, hh] <;> omega
    | succ j =>
      rw [List.set_cons_succ, countInProgress_cons, countInProgress_cons]
      have := ih j
      omega

theorem countInProgress_set_zero {plan : List PlanTask} {i : Nat} {u : PlanTask}
    (h : countInProgress plan = 0) (hu : u.status ≠ .in_progress) :
    countInProgress (plan.set i u) = 0 := by
  have hle := countInProgress_set_le plan i u
  rw [h, if_neg hu] at hle
  omega

theorem firstPending_spec (plan : List PlanTask) :
    ∀ i t, firstPending plan = some (i, t) →
      plan.get? i = some t ∧ t.status = .pending ∧
      ∀ j u, j < i → plan.get? j = some u → u.status ≠ .pending := by
  induction plan with
  | nil => intro i t h; exact Option.noConfusion h
  | cons hd tl ih =>
    intro i t h
    rw [firstPending] at h
    by_cases hp : hd.status = .pending
    · rw [if_pos hp] at h
      obtain ⟨hi, ht⟩ := Prod.mk.injEq .. ▸ Option.some.injEq .. ▸ h
      subst hi; subst ht
      exact ⟨rfl, hp, fun j u hj => absurd hj (Nat.not_lt_zero j)⟩
    · rw [if_neg hp] at h
      rcases Option.map_eq_some'.mp h with ⟨⟨i0, t0⟩, hfp, heq⟩
      obtain ⟨hi, ht⟩ := Prod.mk.injEq .. ▸ heq
      subst hi; subst ht
      obtain ⟨hget, hstat, hbefore⟩ := ih i0 t0 hfp
      refine ⟨hget, hstat, ?_⟩
      intro j u hj hju
      cases j with
      | zero =>
        rw [List.get?_cons_zero] at hju
        obtain rfl := Option.some.injEq .. ▸ hju
        exact hp
      | succ j0 =>
        rw [List.get?_cons_succ] at hju
        exact hbefore j0 u (Nat.lt_of_succ_lt_succ hj) hju

/-- A trace contains a `taskFailed` event. -/
def hasTaskFail : List AgentEvent → Bool
  | [] => false
  | .taskFailed _ _ :: _ => true
  | _ :: rest => hasTaskFail rest

theorem turnTrace_no_fail {evs : List AgentEvent} (h : TurnTrace evs) :
    hasTaskFail evs = false := by
  induction h with
  | empty => rfl
  | failTurn => rfl
  | noAction r => rfl
  | rejected r tc => rfl
  | execFail r tc nm args => rfl
  | execOk r tc nm args res rest hrest ih =>
    simp only [List.cons_append, List.nil_append, hasTaskFail]
    exact ih

theorem execTask_no_fail (env : TaskEnv) (plan : List PlanTask) (task : PlanTask) :
    hasTaskFail (execTask env plan task).events = false :=
  turnTrace_no_fail (execTaskGo_trace _ _ _ _ _)

theorem afterFailHalts_append_of_no_fail {a : List AgentEvent} (b : List AgentEvent)
    (h : hasTaskFail a = false) :
    afterFailHalts (a ++ b) = afterFailHalts b := by
  induction a with
  | nil => rfl
  | cons e rest ih =>
    cases e with
    | taskFailed t er => exact Bool.noConfusion h
    | stateChanged st =>
      rw [List.cons_append]
      exact ih h
    | taskStarted t => rw [List.cons_append]; exact ih h
    | taskCompleted t => rw [List.cons_append]; exact ih h
    | loopFinished => rw [List.cons_append]; exact ih h
    | streamDone c => rw [List.cons_append]; exact ih h
    | waitingForTool tc => rw [List.cons_append]; exact ih h
    | approvalResolved bb => rw [List.cons_append]; exact ih h
    | execCall n a2 => rw [List.cons_append]; exact ih h
    | toolExecuted r => rw [List.cons_append]; exact ih h

/-- The run halts after a task failure: in the full event trace of
`AgentLoop.run`, any `taskFailed` event is followed only by the final
`IDLE` transition of the `finally` block. -/
theorem runGo_afterFailHalts (env : Nat → TaskEnv) (running : Bool) (plan : List PlanTask)
    (k m : Nat) :
    afterFailHalts ((runGo env running plan k m).events ++ [.stateChanged .IDLE]) = true := by
  induction m generalizing running plan k with
  | zero => cases running <;> rfl
  | succ rem ih =>
    cases running with
    | false => rfl
    | true =>
      unfold runGo
      rcases hfp : firstPending plan with _ | it
      · simp only [hfp]
        rfl
      · simp only [hfp]
        rcases hout : (execTask (env k) (plan.set it.1 { it.2 with status := .in_progress })
            { it.2 with status := .in_progress }).failure with _ | e
        · simp only [hout]
          rw [List.append_assoc, List.append_assoc, List.append_assoc,
            afterFailHalts_append_of_no_fail _ (by rfl),
            afterFailHalts_append_of_no_fail _ (execTask_no_fail _ _ _),
            afterFailHalts_append_of_no_fail _ (by rfl)]
          exact ih _ _ _
        · simp only [hout]
          rw [List.append_assoc, List.append_assoc,
            afterFailHalts_append_of_no_fail _ (by rfl),
            afterFailHalts_append_of_no_fail _ (execTask_no_fail _ _ _)]
          rfl

/-- At most one task is `in_progress` in every plan snapshot passed to
`updatePlan`, and the final plan has none. -/
theorem runGo_snapshots (env : Nat → TaskEnv) (running : Bool) (plan : List PlanTask)
    (k m : Nat) (h : countInProgress plan = 0) :
    (∀ s ∈ (runGo env running plan k m).snapshots, countInProgress s ≤ 1) ∧
    countInProgress (runGo env running plan k m).plan = 0 := by
  induction m generalizing running plan k with
  | zero =>
    cases running <;>
      exact ⟨fun s hs => absurd hs (List.not_mem_nil s), h⟩
  | succ rem ih =>
    cases running with
    | false => exact ⟨fun s hs => absurd hs (List.not_mem_nil s), h⟩
    | true =>
      unfold runGo
      rcases hfp : firstPending plan with _ | it
      · simp only [hfp]
        exact ⟨fun s hs => absurd hs (List.not_mem_nil s), h⟩
      · simp only [hfp]
        have h1 : countInProgress (plan.set it.1 { it.2 with status := .in_progress }) ≤ 1 := by
          have := countInProgress_set_le plan it.1 { it.2 with status := .in_progress }
          rw [h] at this
          simpa using this
        rcases hout : (execTask (env k) (plan.set it.1 { it.2 with status := .in_progress })
            { it.2 with status := .in_progress }).failure with _ | e
        · simp only [hout]
          have h2 : countInProgress
              ((plan.set it.1 { it.2 with status := .in_progress }).set it.1
                { it.2 with status := .done }) = 0 := by
            rw [List.set_set]
            exact countInProgress_set_zero h (by simp)
          obtain ⟨ihs, ihp⟩ := ih _ _ (k + 1) h2
          refine ⟨?_, ihp⟩
          intro s hs
          simp only [List.cons_append, List.nil_append, List.mem_cons] at hs
          rcases hs with rfl | rfl | hs
          · exact h1
          · rw [h2]; omega
          · exact ihs s hs
        · simp only [hout]
          have h2 : countInProgress
              ((plan.set it.1 { it.2 with status := .in_progress }).set it.1
                { it.2 with status := .pending }) = 0 := by
            rw [List.set_set]
            exact countInProgress_set_zero h (by simp)
          refine ⟨?_, h2⟩
          intro s hs
          simp only [List.mem_cons, List.not_mem_nil, or_false] at hs
          rcases hs with rfl | rfl
          · exact h1
          · rw [h2]; omega

/-- **C6**: throughout a run started on a plan with no `in_progress` task,
every plan snapshot passed to `updatePlan` has at most one `in_progress`
task and the final plan has none; the loop selects the first `pending`
task (everything before it is non-pending), marks it `in_progress`, marks
it `done` when its turn loop returns without failure, and on failure
reverts it to `pending`, records `taskFailed` as the last loop event and
halts the whole run; the loop also halts (`loopFinished`) when no pending
task remains or when the iteration ceiling is reached. -/
theorem C6_plan_loop_invariants (env : Nat → TaskEnv) (plan : List PlanTask) (m : Nat)
    (h : countInProgress plan = 0) :
    (∀ s ∈ (AgentLoop.run env plan m).snapshots, countInProgress s ≤ 1) ∧
    countInProgress (AgentLoop.run env plan m).plan = 0 ∧
    (∀ i t, firstPending plan = some (i, t) →
      plan.get? i = some t ∧ t.status = .pending ∧
      ∀ j u, j < i → plan.get? j = some u → u.status ≠ .pending) ∧
    (∀ k i t, firstPending plan = some (i, t) →
        (execTask (env k) (plan.set i { t with status := .in_progress })
          { t with status := .in_progress }).failure = none →
      (runGo env true plan k (m + 1)).snapshots.take 2 =
        [plan.set i { t with status := .in_progress },
         plan.set i { t with status := .done }]) ∧
    (∀ k i t e, firstPending plan = some (i, t) →
        (execTask (env k) (plan.set i { t with status := .in_progress })
          { t with status := .in_progress }).failure = some e →
      (runGo env true plan k (m + 1)).plan = plan.set i { t with status := .pending } ∧
      (runGo env true plan k (m + 1)).events.getLast? =
        some (.taskFailed { t with status := .pending } e)) ∧
    (firstPending plan = none →
      ∀ k, runGo env true plan k (m + 1) = ⟨[.loopFinished], [], plan⟩) ∧
    (∀ k, runGo env true plan k 0 = ⟨[.loopFinished], [], plan⟩) ∧
    afterFailHalts (AgentLoop.run env plan m).events = true := by
  refine ⟨(runGo_snapshots env true plan 0 m h).1, (runGo_snapshots env true plan 0 m h).2,
    firstPending_spec plan, ?_, ?_, ?_, fun k => rfl, runGo_afterFailHalts env true plan 0 m⟩
  · intro k i t hfp hok
    unfold runGo
    simp only [hfp, hok]
    rw [List.set_set]
    rfl
  · intro k i t e hfp hfail
    unfold runGo
    simp only [hfp, hfail]
    constructor
    · rw [List.set_set]
    · exact List.getLast?_concat _
  · intro hfp k
    unfold runGo
    simp only [hfp]

def c6Env : Nat → TaskEnv := fun _ =>
  { resp := fun _ => .ok "<message>ok</message>".toList,
    dec := fun _ => .approve,
    exec := fun _ _ => .ok ⟨"ok".toList, .success⟩ }

def c6Plan : List PlanTask := [⟨1, "a".toList, .pending⟩]

theorem C6_plan_loop_invariants_witness :
    countInProgress c6Plan = 0 ∧
    countInProgress (AgentLoop.run c6Env c6Plan 3).plan = 0 ∧
    afterFailHalts (AgentLoop.run c6Env c6Plan 3).events = true :=
  ⟨rfl, (C6_plan_loop_invariants c6Env c6Plan 3 rfl).2.1,
    (C6_plan_loop_invariants c6Env c6Plan 3 rfl).2.2.2.2.2.2.2⟩

/-! ## C9: tool-executor totality -/

def c9Fs : FsEnv :=
  { readFile := fun _ => .error "ENOENT: no such file or directory".toList,
    statDir := fun _ => true,
    createDir := fun _ => .ok (),
    writeFile := fun _ _ => .ok (),
    runCmd := fun _ => ⟨[], [], none⟩ }

/-- **C9 counterexample** (claim as stated is false): `execute` is not
total over every `arguments` value — with `args` equal to `null` the
property read `args.file_path` throws a `TypeError` before `_readFile`'s
`try` is entered, and with `run_command` and no `command` key `exec`
rejects synchronously on the non-string argument; both escape to the
caller instead of becoming `status=error` results. -/
theorem C9_counterexample :
    ToolHandler.execute c9Fs "/w".toList (.str "read_file".toList) .null =
      .error "TypeError: Cannot read properties of null".toList ∧
    ToolHandler.execute c9Fs "/w".toList (.str "run_command".toList) (.obj []) =
      .error "TypeError: The command argument must be of type string".toList :=
  ⟨rfl, rfl⟩

/-- **C9** (amended): for an unknown tool name `execute` returns a
`status=error` result with the descriptive `Unknown tool:` message for
every `arguments` value; for `read_file` and `write_file` with object
arguments it always returns a result (never throws), and filesystem
failures surface as `status=error` results with the `Failed to read
file:` / `Failed to write file:` prefixes; but a `null` `arguments` value
makes the property read itself throw, so totality holds only away from
`null` (and, for `run_command`, only for a string `command`). -/
theorem C9_execute_failure_containment (fs : FsEnv) (root : List Char) (toolName : Json)
    (fields : List (List Char × Json)) :
    (jsonIsStr toolName "read_file" = true →
      ∃ r, ToolHandler.execute fs root toolName (.obj fields) = .ok r) ∧
    (jsonIsStr toolName "write_file" = true →
      ∃ r, ToolHandler.execute fs root toolName (.obj fields) = .ok r) ∧
    (jsonIsStr toolName "read_file" = false → jsonIsStr toolName "write_file" = false →
      jsonIsStr toolName "run_command" = false → ∀ args,
      ToolHandler.execute fs root toolName args =
        .ok ⟨"Unknown tool: ".toList ++ jsonToDisplay toolName, .error⟩) ∧
    (jsonIsStr toolName "read_file" = true → ∀ p m,
      jGet (.obj fields) "file_path".toList = some (.str p) →
      fs.readFile (resolveFilePath root p) = .error m →
      ToolHandler.execute fs root toolName (.obj fields) =
        .ok ⟨"Failed to read file: ".toList ++ m, .error⟩) ∧
    (jsonIsStr toolName "write_file" = true → ∀ p c m,
      jGet (.obj fields) "file_path".toList = some (.str p) →
      jGet (.obj fields) "content".toList = some (.str c) →
      fs.statDir (dirname (resolveFilePath root p)) = true →
      fs.writeFile (resolveFilePath root p) (stripFilePathComment c) = .error m →
      ToolHandler.execute fs root toolName (.obj fields) =
        .ok ⟨"Failed to write file: ".toList ++ m, .error⟩) ∧
    (jsonIsStr toolName "read_file" = true →
      ToolHandler.execute fs root toolName .null =
        .error "TypeError: Cannot read properties of null".toList) := by
  refine ⟨?_, ?_, ?_, ?_, ?_, ?_⟩
  · intro h
    rw [ToolHandler.execute, if_pos h]
    exact ⟨_, rfl⟩
  · intro h
    by_cases h1 : jsonIsStr toolName "read_file" = true
    · rw [ToolHandler.execute, if_pos h1]
      exact ⟨_, rfl⟩
    · rw [ToolHandler.execute, if_neg h1, if_pos h]
      exact ⟨_, rfl⟩
  · intro h1 h2 h3 args
    rw [ToolHandler.execute,
      if_neg (fun hc => Bool.noConfusion (h1 ▸ hc)),
      if_neg (fun hc => Bool.noConfusion (h2 ▸ hc)),
      if_neg (fun hc => Bool.noConfusion (h3 ▸ hc))]
  · intro h p m hget hread
    rw [ToolHandler.execute, if_pos h]
    have hm : jMember (.obj fields) "file_path".toList =
        .ok (jGet (.obj fields) "file_path".toList) := rfl
    rw [hm, hget]
    show Except.ok (readFileTool fs root (some (.str p))) = _
    simp only [readFileTool, hread]
  · intro h p c m hgp hgc hstat hw
    by_cases h1 : jsonIsStr toolName "read_file" = true
    · exfalso
      cases toolName with
      | str t =>
        have e1 : t = "read_file".toList := by simpa [jsonIsStr] using h1
        have e2 : t = "write_file".toList := by simpa [jsonIsStr] using h
        rw [e1] at e2
        exact absurd e2 (by decide)
      | null => exact Bool.noConfusion h1
      | bool b => exact Bool.noConfusion h1
      | num l => exact Bool.noConfusion h1
      | arr xs => exact Bool.noConfusion h1
      | obj fs2 => exact Bool.noConfusion h1
    · rw [ToolHandler.execute, if_neg h1, if_pos h]
      have hmp : jMember (.obj fields) "file_path".toList =
          .ok (jGet (.obj fields) "file_path".toList) := rfl
      have hmc : jMember (.obj fields) "content".toList =
          .ok (jGet (.obj fields) "content".toList) := rfl
      rw [hmp, hgp]
      show Except.map (fun ct => writeFileTool fs root (some (.str p)) ct)
        (jMember (.obj fields) "content".toList) = _
      rw [hmc, hgc]
      show Except.ok (writeFileTool fs root (some (.str p)) (some (.str c))) = _
      simp only [writeFileTool, hstat, if_pos, hw]
  · intro h
    rw [ToolHandler.execute, if_pos h]
    rfl

theorem C9_execute_failure_containment_witness :
    ToolHandler.execute c9Fs "/w".toList (.str "frobnicate".toList) .null =
      .ok ⟨"Unknown tool: frobnicate".toList, .error⟩ ∧
    ToolHandler.execute c9Fs "/w".toList (.str "read_file".toList)
        (.obj [("file_path".toList, .str "a.txt".toList)]) =
      .ok ⟨"Failed to read file: ENOENT: no such file or directory".toList, .error⟩ :=
  ⟨(C9_execute_failure_containment c9Fs "/w".toList (.str "frobnicate".toList) []).2.2.1
      rfl rfl rfl .null,
    (C9_execute_failure_containment c9Fs "/w".toList (.str "read_file".toList)
        [("file_path".toList, .str "a.txt".toList)]).2.2.2.1 rfl
      "a.txt".toList "ENOENT: no such file or directory".toList rfl rfl⟩

/-! ## C10: control-operation algebra -/

/-- **C10**: `stop` is idempotent — a second `stop` leaves the control
state unchanged and delivers nothing further; none of the three control
operations emits events (so no duplicates); `approveToolExecution` and
`rejectToolExecution` with no outstanding suspension are no-ops; each
operation delivers at most one resolution and clears the stored resolver,
so an immediately repeated call delivers nothing. -/
theorem C10_control_ops_idempotent (s : LoopSt) :
    (AgentLoop.stop (AgentLoop.stop s).st).st = (AgentLoop.stop s).st ∧
    (AgentLoop.stop (AgentLoop.stop s).st).approvals = [] ∧
    (AgentLoop.stop s).events = [] ∧
    (approveToolExecution s).events = [] ∧
    (rejectToolExecution s).events = [] ∧
    (s.toolApproval = false → approveToolExecution s = ⟨s, [], []⟩) ∧
    (s.toolApproval = false → rejectToolExecution s = ⟨s, [], []⟩) ∧
    (s.toolApproval = false → (AgentLoop.stop s).approvals = []) ∧
    (approveToolExecution s).approvals.length ≤ 1 ∧
    (rejectToolExecution s).approvals.length ≤ 1 ∧
    (AgentLoop.stop s).approvals.length ≤ 1 ∧
    (approveToolExecution s).st.toolApproval = false ∧
    (rejectToolExecution s).st.toolApproval = false ∧
    (approveToolExecution (approveToolExecution s).st).approvals = [] ∧
    (rejectToolExecution (rejectToolExecution s).st).approvals = [] := by
  cases h : s.toolApproval <;>
    simp [approveToolExecution, rejectToolExecution, AgentLoop.stop, h]

theorem C10_control_ops_idempotent_witness :
    (AgentLoop.stop (AgentLoop.stop ⟨true, false, false⟩).st).st =
      (AgentLoop.stop (⟨true, false, false⟩ : LoopSt)).st ∧
    approveToolExecution ⟨true, false, false⟩ = ⟨⟨true, false, false⟩, [], []⟩ :=
  ⟨(C10_control_ops_idempotent ⟨true, false, false⟩).1,
    (C10_control_ops_idempotent ⟨true, false, false⟩).2.2.2.2.2.1 rfl⟩

end ZeroG
